import Mathlib

/-!
# Verification of the `fast-deep-diff` comparison engine

Shallow embedding of `src/diff.rs`: the `Value` model (custom equality,
ordering, hashing), the `Diff` record, the `DeepDiff` comparison engine with
its two array modes and tolerant float equality, and the JSON adapter.

Machine floats (`f64`) are modelled by `F64`: an exact-rational carrier for
finite values plus the IEEE special values (negative zero, the two
infinities, and a single canonical quiet NaN).  All floating-point
computations exercised by the claims (differences, absolute values, maxima
and quotients of exactly representable values, and every NaN/zero/infinity
propagation rule) are exact in IEEE binary64, so the model agrees with the
Rust code on them; rounding of inexact results is the only place the model
idealises the hardware, and no claim depends on it.
-/

/-- Model of Rust `f64` (IEEE binary64).  `num q` is a finite value with
exact rational magnitude (`num 0` is `+0.0`); `negZero` is `-0.0`;
`nan` is a single canonical quiet NaN. -/
inductive F64 where
  | num (q : ℚ)
  | negZero
  | posInf
  | negInf
  | nan
deriving DecidableEq

namespace F64

/-- `f64::is_nan`. -/
def isNan : F64 → Bool
  | .nan => true
  | _ => false

/-- True when the value is one of the two IEEE zeros. -/
def isZero : F64 → Bool
  | .num q => q == 0
  | .negZero => true
  | _ => false

/-- The exact rational value of a non-NaN finite float (`-0.0` is `0`). -/
def toRat? : F64 → Option ℚ
  | .num q => some q
  | .negZero => some 0
  | _ => none

/-- IEEE numeric comparison (`PartialOrd for f64`): `none` iff either
operand is NaN; `-0.0` compares equal to `+0.0`; infinities compare
above / below every finite value. -/
def cmpNum (a b : F64) : Option Ordering :=
  match a, b with
  | .nan, _ => none
  | _, .nan => none
  | .posInf, .posInf => some .eq
  | .negInf, .negInf => some .eq
  | .posInf, _ => some .gt
  | _, .posInf => some .lt
  | .negInf, _ => some .lt
  | _, .negInf => some .gt
  | a, b =>
      match a.toRat?, b.toRat? with
      | some x, some y =>
          some (if x < y then .lt else if y < x then .gt else .eq)
      | _, _ => none

/-- IEEE `==` on `f64` (`NaN != NaN`, `-0.0 == +0.0`). -/
def beq (a b : F64) : Bool := a.cmpNum b == some .eq

/-- IEEE `<=` on `f64` (false whenever either operand is NaN). -/
def ble (a b : F64) : Bool := a.cmpNum b == some .lt || a.cmpNum b == some .eq

/-- IEEE sign bit (`true` = negative).  The canonical NaN is taken
positive; no claim depends on a NaN's sign. -/
def sign : F64 → Bool
  | .num q => decide (q < 0)
  | .negZero => true
  | .posInf => false
  | .negInf => true
  | .nan => false

/-- `f64::abs`. -/
def abs : F64 → F64
  | .num q => .num (if q < 0 then -q else q)
  | .negZero => .num 0
  | .posInf => .posInf
  | .negInf => .posInf
  | .nan => .nan

/-- IEEE subtraction.  Finite results are exact (the claims only subtract
exactly representable values); special-value rules follow IEEE 754:
`inf - inf = NaN`, `x - x = +0` for finite `x`, `-0 - (+0) = -0`,
`-0 - (-0) = +0`. -/
def sub : F64 → F64 → F64
  | .nan, _ => .nan
  | _, .nan => .nan
  | .posInf, .posInf => .nan
  | .negInf, .negInf => .nan
  | .posInf, _ => .posInf
  | .negInf, _ => .negInf
  | _, .posInf => .negInf
  | _, .negInf => .posInf
  | .num a, .num b => .num (a - b)
  | .num a, .negZero => .num a
  | .negZero, .num b => if b = 0 then .negZero else .num (-b)
  | .negZero, .negZero => .num 0

/-- Rust `f64::max` (IEEE `maxNum`): a NaN operand is ignored; on a
numeric tie the first operand is returned (IEEE leaves the choice between
`+0.0` and `-0.0` open; the engine only applies `max` to outputs of
`abs`, which are never `-0.0`, so the choice is unobservable). -/
def max (a b : F64) : F64 :=
  if a.isNan then b
  else if b.isNan then a
  else match a.cmpNum b with
       | some .lt => b
       | _ => a

/-- IEEE division.  Finite nonzero quotients are exact (the claims only
divide exactly representable values); `0/0 = NaN`, `inf/inf = NaN`,
`x/0 = ±inf`, `x/inf = ±0`, with the usual sign rules. -/
def div : F64 → F64 → F64
  | .nan, _ => .nan
  | _, .nan => .nan
  | .posInf, .posInf => .nan
  | .posInf, .negInf => .nan
  | .negInf, .posInf => .nan
  | .negInf, .negInf => .nan
  | .posInf, .num b => if b < 0 then .negInf else .posInf
  | .posInf, .negZero => .negInf
  | .negInf, .num b => if b < 0 then .posInf else .negInf
  | .negInf, .negZero => .posInf
  | .num a, .posInf => if a < 0 then .negZero else .num 0
  | .num a, .negInf => if a < 0 then .num 0 else .negZero
  | .negZero, .posInf => .negZero
  | .negZero, .negInf => .num 0
  | .num a, .num b =>
      if b = 0 then (if a = 0 then .nan else if a < 0 then .negInf else .posInf)
      else if a = 0 then (if b < 0 then .negZero else .num 0)
      else .num (a / b)
  | .num a, .negZero =>
      if a = 0 then .nan else if a < 0 then .posInf else .negInf
  | .negZero, .num b =>
      if b = 0 then .nan else if b < 0 then .num 0 else .negZero
  | .negZero, .negZero => .nan

/-- `f64::to_bits`.  The special values carry their true IEEE bit
patterns (`-0.0 = 2^63`, `+inf = 0x7FF0000000000000`, the canonical quiet
NaN `0x7FF8000000000000`); a finite nonzero value is mapped to an abstract
injective code offset past `2^64` standing in for its IEEE encoding (only
equality and disequality of bit patterns are ever used). -/
def bits : F64 → ℕ
  | .num q =>
      if q = 0 then 0
      else 2 ^ 64 + Nat.pair q.num.natAbs (Nat.pair (if q.num < 0 then 1 else 0) q.den)
  | .negZero => 2 ^ 63
  | .posInf => 0x7FF0000000000000
  | .negInf => 0xFFF0000000000000
  | .nan => 0x7FF8000000000000

end F64

/-!
## The Value model and the Diff record (`src/diff.rs` lines 7–110)
-/

/-- The `Value` enum of `src/diff.rs`.  Rust's `BTreeMap<String, Value>` is
modelled as an association list whose well-formedness invariant
(`Value.wf`) demands strictly ascending keys — exactly the iteration
order a `BTreeMap` guarantees.  Rust `String` ordering is byte-wise
lexicographic on UTF-8, which coincides with Lean's code-point
lexicographic `String` order on valid UTF-8 data. -/
inductive Value where
  | int (i : ℤ)
  | float (f : F64)
  | str (s : String)
  | bool (b : Bool)
  | array (xs : List Value)
  | dict (es : List (String × Value))

/-- The `Diff` enum of `src/diff.rs`: one detected difference. -/
inductive Diff where
  | added (path : String) (v : Value)
  | removed (path : String) (v : Value)
  | changed (path : String) (v1 v2 : Value)

/-- `Value::variant_order` (`src/diff.rs` lines 100–109). -/
def Value.variant_order : Value → ℕ
  | .int _ => 1
  | .float _ => 2
  | .str _ => 3
  | .bool _ => 4
  | .array _ => 5
  | .dict _ => 6

mutual
/-- `impl PartialEq for Value` (`src/diff.rs` lines 24–42): pointwise
equality, except two NaN floats compare equal. -/
def Value.beq : Value → Value → Bool
  | .int a, .int b => a == b
  | .float a, .float b => if a.isNan && b.isNan then true else F64.beq a b
  | .str a, .str b => a == b
  | .bool a, .bool b => a == b
  | .array a, .array b => beqList a b
  | .dict a, .dict b => beqKVList a b
  | _, _ => false

/-- Element-wise `Vec<Value>` equality (Rust `PartialEq` for `Vec`). -/
def beqList : List Value → List Value → Bool
  | [], [] => true
  | x :: xs, y :: ys => Value.beq x y && beqList xs ys
  | _, _ => false

/-- Entry-wise `BTreeMap<String, Value>` equality (Rust compares the two
sorted entry sequences). -/
def beqKVList : List (String × Value) → List (String × Value) → Bool
  | [], [] => true
  | (k1, v1) :: xs, (k2, v2) :: ys => k1 == k2 && Value.beq v1 v2 && beqKVList xs ys
  | _, _ => false
end

/-- Hasher-input token: one primitive write performed by the `Hash`
implementation (a tag byte from `write_u8`, a payload, or a collection
length prefix). -/
inductive HashTok where
  | byte (n : ℕ)
  | int64 (i : ℤ)
  | uint64 (n : ℕ)
  | strTok (s : String)
  | boolTok (b : Bool)
  | lenTok (n : ℕ)
deriving DecidableEq

mutual
/-- `impl Hash for Value` (`src/diff.rs` lines 46–75), modelled as the
exact sequence of primitive values fed to the hasher: a distinct tag byte
per variant, floats by their bit pattern (`f.to_bits()`), and collections
with their length prefix followed by their elements (Rust's `Hash` for
`Vec`, `BTreeMap` and tuples). -/
def Value.hashStream : Value → List HashTok
  | .int i => [.byte 1, .int64 i]
  | .float f => [.byte 2, .uint64 f.bits]
  | .str s => [.byte 3, .strTok s]
  | .bool b => [.byte 4, .boolTok b]
  | .array xs => .byte 5 :: .lenTok xs.length :: hashStreamList xs
  | .dict es => .byte 6 :: .lenTok es.length :: hashStreamKVList es

/-- Hasher input of a `Vec<Value>`'s elements. -/
def hashStreamList : List Value → List HashTok
  | [] => []
  | x :: t => Value.hashStream x ++ hashStreamList t

/-- Hasher input of a `BTreeMap`'s entries (each entry hashes its key then
its value). -/
def hashStreamKVList : List (String × Value) → List HashTok
  | [] => []
  | (k, v) :: t => .strTok k :: (Value.hashStream v ++ hashStreamKVList t)
end

mutual
/-- `impl Ord for Value` (`src/diff.rs` lines 83–97): same-variant values
compare naturally (floats via `partial_cmp(..).unwrap_or(Equal)`, so NaN
ties with everything), mixed variants by `variant_order`. -/
def Value.cmp : Value → Value → Ordering
  | .int a, .int b => if a < b then .lt else if b < a then .gt else .eq
  | .float a, .float b => (F64.cmpNum a b).getD .eq
  | .str a, .str b => if a < b then .lt else if b < a then .gt else .eq
  | .bool a, .bool b => if a == b then .eq else if b then .lt else .gt
  | .array a, .array b => cmpList a b
  | .dict a, .dict b => cmpKVList a b
  | a, b =>
      if a.variant_order < b.variant_order then .lt
      else if b.variant_order < a.variant_order then .gt else .eq

/-- Lexicographic `Vec<Value>` ordering (Rust `Ord` for `Vec`). -/
def cmpList : List Value → List Value → Ordering
  | [], [] => .eq
  | [], _ :: _ => .lt
  | _ :: _, [] => .gt
  | x :: xs, y :: ys =>
      match Value.cmp x y with
      | .eq => cmpList xs ys
      | o => o

/-- Lexicographic `BTreeMap` ordering over `(key, value)` entries (Rust
`Ord` for `BTreeMap`; a tuple compares its key first, then its value). -/
def cmpKVList : List (String × Value) → List (String × Value) → Ordering
  | [], [] => .eq
  | [], _ :: _ => .lt
  | _ :: _, [] => .gt
  | (k1, v1) :: xs, (k2, v2) :: ys =>
      match (if k1 < k2 then Ordering.lt else if k2 < k1 then Ordering.gt else Ordering.eq) with
      | .eq =>
          match Value.cmp v1 v2 with
          | .eq => cmpKVList xs ys
          | o => o
      | o => o
end

/-- Strictly ascending keys: the `BTreeMap` representation invariant on
an entry list. -/
def keysStrictSorted : List (String × Value) → Bool
  | [] => true
  | [_] => true
  | e1 :: e2 :: t => decide (e1.1 < e2.1) && keysStrictSorted (e2 :: t)

mutual
/-- Well-formed value: every dict node has strictly ascending (hence
unique) keys, the `BTreeMap` invariant of the Rust representation. -/
def Value.wf : Value → Bool
  | .array xs => wfList xs
  | .dict es => keysStrictSorted es && wfKVList es
  | _ => true

/-- All array elements well-formed. -/
def wfList : List Value → Bool
  | [] => true
  | x :: t => Value.wf x && wfList t

/-- All dict entry values well-formed. -/
def wfKVList : List (String × Value) → Bool
  | [] => true
  | e :: t => Value.wf e.2 && wfKVList t
end

/-!
## Sorting (`sorted1.sort()` in `compare_arrays_unordered`), lookup, paths
-/

/-- Insert a value into a sorted list, after every element it does not
strictly exceed under `Value.cmp` — the stable insertion position. -/
def insertVal (x : Value) : List Value → List Value
  | [] => [x]
  | y :: ys => if Value.cmp x y = .gt then y :: insertVal x ys else x :: y :: ys

/-- Model of `Vec::sort` on `Vec<Value>` (a stable sort by `Ord::cmp`),
as a stable insertion sort by `Value.cmp`.  On any comparator that is a
lawful total preorder a stable sort's output is unique, so this agrees
with Rust's stable driftsort there; the claims' sorted inputs are lawful
(the spec's §9 NaN caveat is the only unlawful region). -/
def sortValues (l : List Value) : List Value := l.foldr insertVal []

/-- `BTreeMap::get` on the association-list representation. -/
def lookupKV (k : String) : List (String × Value) → Option Value
  | [] => none
  | (k', v) :: t => if k' = k then some v else lookupKV k t

/-- `BTreeMap::contains_key`. -/
def containsKey (d : List (String × Value)) (k : String) : Bool :=
  (lookupKV k d).isSome

/-- Path extension for dict descent (`src/diff.rs` lines 165–169 and
180–184): the bare key at the root, `parent.key` otherwise. -/
def joinPath (p k : String) : String := if p = "" then k else p ++ "." ++ k

/-- Path extension for array descent (`src/diff.rs` line 210):
`parent[index]`. -/
def idxPath (p : String) (i : ℕ) : String := p ++ "[" ++ toString i ++ "]"

/-- The `DeepDiff` comparison engine's configuration
(`src/diff.rs` lines 112–116). -/
structure DeepDiff where
  ignore_order : Bool
  float_tolerance : Option F64
  use_percent : Bool

/-- `DeepDiff::new` (`src/diff.rs` lines 119–125). -/
def DeepDiff.new : DeepDiff :=
  { ignore_order := false, float_tolerance := none, use_percent := false }

/-- The builder method `DeepDiff::ignore_order` (lines 127–130). -/
def DeepDiff.with_ignore_order (c : DeepDiff) (value : Bool) : DeepDiff :=
  { c with ignore_order := value }

/-- The builder method `DeepDiff::float_tolerance` (lines 132–136). -/
def DeepDiff.with_float_tolerance (c : DeepDiff) (value : F64) (use_percent : Bool) : DeepDiff :=
  { c with float_tolerance := some value, use_percent := use_percent }

/-- `DeepDiff::values_equal` (`src/diff.rs` lines 239–256): leaf equality.
Two floats under a configured tolerance compare by `|f1 - f2|` against
the threshold — divided by `max(|f1|, |f2|)` first in percent mode;
everything else (including floats with no tolerance, via Rust's `==` on
`Value`, which for a bare float pair is IEEE `f1 == f2`) falls back to
the `Value` equality. -/
def values_equal (c : DeepDiff) (v1 v2 : Value) : Bool :=
  match v1, v2 with
  | .float f1, .float f2 =>
      match c.float_tolerance with
      | some tolerance =>
          let d := (f1.sub f2).abs
          if c.use_percent then
            let m := f1.abs.max f2.abs
            (d.div m).ble tolerance
          else d.ble tolerance
      | none => F64.beq f1 f2
  | _, _ => Value.beq v1 v2

/-!
## Size measure for termination of the recursive diff walk
-/

mutual
/-- Structural size of a value (termination measure for the diff walk). -/
def Value.msize : Value → ℕ
  | .int _ => 1
  | .float _ => 1
  | .str _ => 1
  | .bool _ => 1
  | .array xs => 1 + msizeList xs
  | .dict es => 1 + msizeKVList es

/-- Size of an array's elements. -/
def msizeList : List Value → ℕ
  | [] => 0
  | x :: t => 1 + Value.msize x + msizeList t

/-- Size of a dict's entries. -/
def msizeKVList : List (String × Value) → ℕ
  | [] => 0
  | e :: t => 1 + Value.msize e.2 + msizeKVList t
end

lemma msize_pos (v : Value) : 0 < v.msize := by
  cases v <;> simp +arith [Value.msize]

lemma msize_lookupKV {k : String} {d : List (String × Value)} {v : Value}
    (h : lookupKV k d = some v) : v.msize < msizeKVList d := by
  induction d with
  | nil => simp [lookupKV] at h
  | cons e t ih =>
      obtain ⟨k', v'⟩ := e
      simp only [lookupKV] at h
      split at h
      · cases h; simp +arith [msizeKVList]
      · have := ih h; simp only [msizeKVList]; omega

lemma msize_getElem {l : List Value} {i : ℕ} {v : Value}
    (h : l[i]? = some v) : v.msize < msizeList l := by
  induction l generalizing i with
  | nil => simp at h
  | cons x t ih =>
      cases i with
      | zero => simp at h; subst h; simp +arith [msizeList]
      | succ j =>
          simp only [List.getElem?_cons_succ] at h
          have := ih h; simp only [msizeList]; omega

lemma msizeList_insertVal (x : Value) (l : List Value) :
    msizeList (insertVal x l) = 1 + x.msize + msizeList l := by
  induction l with
  | nil => simp [insertVal, msizeList]
  | cons y ys ih =>
      rw [insertVal]
      split
      · simp only [msizeList]; rw [ih]; omega
      · simp [msizeList]

lemma msizeList_sortValues (l : List Value) : msizeList (sortValues l) = msizeList l := by
  induction l with
  | nil => simp [sortValues]
  | cons x t ih =>
      show msizeList (insertVal x (sortValues t)) = _
      rw [msizeList_insertVal, ih]; simp only [msizeList]

lemma length_le_msizeList (l : List Value) : l.length ≤ msizeList l := by
  induction l with
  | nil => simp [msizeList]
  | cons x t ih => simp only [msizeList, List.length_cons]; omega

/-!
## The recursive diff walk (`src/diff.rs` lines 138–256)
-/

/-- The `Added`-emitting second loop of `DeepDiff::compare_dicts`
(`src/diff.rs` lines 178–187): every `dict2` entry whose key `dict1`
lacks, in `dict2` order, as `Added(extended_path, value2)`. -/
def added_entries (d1 d2 : List (String × Value)) (path : String) : List Diff :=
  (d2.filter fun e => !containsKey d1 e.1).map fun e => Diff.added (joinPath path e.1) e.2

mutual
/-- `DeepDiff::compare_recursive` (`src/diff.rs` lines 142–154): two
dicts and two arrays recurse structurally; any other pairing is a leaf
comparison via `values_equal`, emitting `Changed(path, v1, v2)` when
unequal. -/
def compare_recursive (c : DeepDiff) (v1 v2 : Value) (path : String) : List Diff :=
  match v1, v2 with
  | .dict d1, .dict d2 => compare_dicts c d1 d2 path
  | .array a1, .array a2 => compare_arrays c a1 a2 path
  | _, _ => if values_equal c v1 v2 then [] else [Diff.changed path v1 v2]
termination_by (v1.msize + v2.msize, 0)
decreasing_by
· apply Prod.Lex.left; simp only [Value.msize]; omega
· apply Prod.Lex.left; simp only [Value.msize]; omega

/-- `DeepDiff::compare_dicts` (`src/diff.rs` lines 156–190): the first
loop walks `dict1` in order (recursing on common keys, emitting `Removed`
for keys absent from `dict2`); the second loop appends the `Added`
entries for keys only in `dict2`. -/
def compare_dicts (c : DeepDiff) (d1 d2 : List (String × Value)) (path : String) : List Diff :=
  dicts_removed_loop c d1 d2 path ++ added_entries d1 d2 path
termination_by (msizeKVList d1 + msizeKVList d2, 2)
decreasing_by
· apply Prod.Lex.right; omega

/-- The first loop of `DeepDiff::compare_dicts` (`src/diff.rs` lines
164–176): for each `dict1` entry in order, recurse when `dict2.get(key)`
hits, emit `Removed(extended_path, value1)` when it misses. -/
def dicts_removed_loop (c : DeepDiff) (d1 d2 : List (String × Value)) (path : String) :
    List Diff :=
  match d1 with
  | [] => []
  | (k, v1) :: t1 =>
      (match hlk : lookupKV k d2 with
       | some v2 => compare_recursive c v1 v2 (joinPath path k)
       | none => [Diff.removed (joinPath path k) v1]) ++
      dicts_removed_loop c t1 d2 path
termination_by (msizeKVList d1 + msizeKVList d2, 1)
decreasing_by
· apply Prod.Lex.left
  have hv2 := msize_lookupKV hlk
  simp only [msizeKVList]; omega
· apply Prod.Lex.left; simp only [msizeKVList]; omega

/-- `DeepDiff::compare_arrays` (`src/diff.rs` lines 192–198). -/
def compare_arrays (c : DeepDiff) (arr1 arr2 : List Value) (path : String) : List Diff :=
  if c.ignore_order then compare_arrays_unordered c arr1 arr2 path
  else ordered_loop c arr1 arr2 path 0
termination_by (msizeList arr1 + msizeList arr2, msizeList arr1 + msizeList arr2 + 2)
decreasing_by
· apply Prod.Lex.right; omega
· apply Prod.Lex.right
  have ha1 := length_le_msizeList arr1
  have ha2 := length_le_msizeList arr2
  omega

/-- `DeepDiff::compare_arrays_unordered` (`src/diff.rs` lines 224–237):
sort a copy of each array, then run the positional walk. -/
def compare_arrays_unordered (c : DeepDiff) (arr1 arr2 : List Value) (path : String) :
    List Diff :=
  ordered_loop c (sortValues arr1) (sortValues arr2) path 0
termination_by (msizeList arr1 + msizeList arr2, msizeList arr1 + msizeList arr2 + 1)
decreasing_by
· rw [msizeList_sortValues, msizeList_sortValues]
  apply Prod.Lex.right
  have h1 := length_le_msizeList (sortValues arr1)
  have h2 := length_le_msizeList (sortValues arr2)
  rw [msizeList_sortValues] at h1
  rw [msizeList_sortValues] at h2
  omega

/-- The `for i in 0..max_len` loop of `DeepDiff::compare_arrays_ordered`
(`src/diff.rs` lines 200–222), entered at index `i`.  The path carries
the `[i]` suffix only when `ignore_order` is off (line 210).  Rust's
`(None, None) => unreachable!()` arm is modelled as `[]`; the theorem for
C9 proves the arm is never taken, so the modelling is unobservable. -/
def ordered_loop (c : DeepDiff) (l1 l2 : List Value) (path : String) (i : ℕ) : List Diff :=
  if h : i < max l1.length l2.length then
    (match h1 : l1[i]?, h2 : l2[i]? with
     | some v1, some v2 =>
         compare_recursive c v1 v2 (if c.ignore_order then path else idxPath path i)
     | some v1, none =>
         [Diff.removed (if c.ignore_order then path else idxPath path i) v1]
     | none, some v2 =>
         [Diff.added (if c.ignore_order then path else idxPath path i) v2]
     | none, none => []) ++
    ordered_loop c l1 l2 path (i + 1)
  else []
termination_by (msizeList l1 + msizeList l2, max l1.length l2.length - i)
decreasing_by
· apply Prod.Lex.left
  have := msize_getElem h1
  have := msize_getElem h2
  omega
· apply Prod.Lex.right; omega
end

/-- `DeepDiff::compare` (`src/diff.rs` lines 138–140): the walk starts
at the empty root path. -/
def compare (c : DeepDiff) (v1 v2 : Value) : List Diff :=
  compare_recursive c v1 v2 ""

lemma compare_def (c : DeepDiff) (v1 v2 : Value) :
    compare c v1 v2 = compare_recursive c v1 v2 "" := rfl

/-- One-step unfolding of `ordered_loop` with the index hypotheses of the
dependent match erased (they are only needed for termination). -/
lemma ordered_loop_eq (c : DeepDiff) (l1 l2 : List Value) (p : String) (i : ℕ) :
    ordered_loop c l1 l2 p i =
      if i < max l1.length l2.length then
        (match l1[i]?, l2[i]? with
         | some v1, some v2 =>
             compare_recursive c v1 v2 (if c.ignore_order then p else idxPath p i)
         | some v1, none => [Diff.removed (if c.ignore_order then p else idxPath p i) v1]
         | none, some v2 => [Diff.added (if c.ignore_order then p else idxPath p i) v2]
         | none, none => []) ++ ordered_loop c l1 l2 p (i + 1)
      else [] := by
  rw [ordered_loop]
  split
  · congr 1
    rcases hx : l1[i]? with _ | v1 <;> rcases hy : l2[i]? with _ | v2 <;> simp [hx, hy]
  · rfl

/-!
## The JSON adapter (`src/diff.rs` lines 258–287)
-/

/-- A `serde_json` number: either an exact `i64` (`is_i64()` true) or an
`f64`. -/
inductive JNumber where
  | i64 (i : ℤ)
  | f64 (f : F64)

/-- A `serde_json::Value`: the external JSON-like tree consumed by the
adapter. -/
inductive JsonValue where
  | null
  | bool (b : Bool)
  | number (n : JNumber)
  | str (s : String)
  | arr (xs : List JsonValue)
  | obj (kvs : List (String × JsonValue))

/-- `BTreeMap::insert` on the sorted association-list representation
(later duplicate keys overwrite earlier ones, as in Rust). -/
def insertSorted (k : String) (v : Value) : List (String × Value) → List (String × Value)
  | [] => [(k, v)]
  | (k', v') :: t =>
      if k < k' then (k, v) :: (k', v') :: t
      else if k = k' then (k, v) :: t
      else (k', v') :: insertSorted k v t

mutual
/-- `DeepDiff::json_to_value` (`src/diff.rs` lines 264–287): null becomes
the string `"null"`, numbers split by `is_i64()`, arrays map element-wise,
objects collect into a `BTreeMap`. -/
def json_to_value : JsonValue → Value
  | .null => .str "null"
  | .bool b => .bool b
  | .number (.i64 i) => .int i
  | .number (.f64 f) => .float f
  | .str s => .str s
  | .arr xs => .array (jsonValsToValues xs)
  | .obj kvs => .dict (jsonObjFold kvs [])

/-- Element-wise adapter for JSON arrays. -/
def jsonValsToValues : List JsonValue → List Value
  | [] => []
  | j :: t => json_to_value j :: jsonValsToValues t

/-- The object loop of `json_to_value`: insert each converted entry into
the accumulated `BTreeMap`. -/
def jsonObjFold : List (String × JsonValue) → List (String × Value) → List (String × Value)
  | [], acc => acc
  | (k, j) :: t, acc => jsonObjFold t (insertSorted k (json_to_value j) acc)
end

/-- `DeepDiff::compare_json` (`src/diff.rs` lines 258–262). -/
def compare_json (c : DeepDiff) (json1 json2 : JsonValue) : List Diff :=
  compare c (json_to_value json1) (json_to_value json2)

/-!
## Specification-side definitions used to state the claims
-/

/-- The `Removed`/`Added`/`Changed` mirror (C4's duality): what the spec
says `compare(b, a)` emits in place of each `compare(a, b)` entry. -/
def dualDiff : Diff → Diff
  | .added p v => .removed p v
  | .removed p v => .added p v
  | .changed p v1 v2 => .changed p v2 v1

/-- Spec wording of the order-insensitive walk (§4.2): the positional
walk over two (already sorted) arrays in which every element is compared
at the *parent* path — no `[index]` suffix is ever appended. -/
def specNoIndexWalk (c : DeepDiff) : List Value → List Value → String → List Diff
  | [], [], _ => []
  | v :: t1, [], p => Diff.removed p v :: specNoIndexWalk c t1 [] p
  | [], v :: t2, p => Diff.added p v :: specNoIndexWalk c [] t2 p
  | v1 :: t1, v2 :: t2, p => compare_recursive c v1 v2 p ++ specNoIndexWalk c t1 t2 p

/-- Spec wording of the order-sensitive walk (§4.2, C7): walk the index
range `0..max(len a, len b)`; recurse at `parent[i]` when both sides have
the index, emit `Removed`/`Added` at `parent[i]` when only one does. -/
def specIndexedWalk (c : DeepDiff) (l1 l2 : List Value) (p : String) : List Diff :=
  (List.range (max l1.length l2.length)).flatMap fun i =>
    match l1[i]?, l2[i]? with
    | some v1, some v2 => compare_recursive c v1 v2 (idxPath p i)
    | some v1, none => [Diff.removed (idxPath p i) v1]
    | none, some v2 => [Diff.added (idxPath p i) v2]
    | none, none => []

/-- Key-merge presentation of one dict level's diffs: simultaneous sorted
walk of the two entry lists.  Used to prove C4's duality; `compare_dicts`
output is a permutation of it on well-formed dicts. -/
def mergeDiff (c : DeepDiff) : List (String × Value) → List (String × Value) → String → List Diff
  | [], [], _ => []
  | [], (k, v) :: t2, p => Diff.added (joinPath p k) v :: mergeDiff c [] t2 p
  | (k, v) :: t1, [], p => Diff.removed (joinPath p k) v :: mergeDiff c t1 [] p
  | (k1, v1) :: t1, (k2, v2) :: t2, p =>
      if k1 < k2 then Diff.removed (joinPath p k1) v1 :: mergeDiff c t1 ((k2, v2) :: t2) p
      else if k2 < k1 then Diff.added (joinPath p k2) v2 :: mergeDiff c ((k1, v1) :: t1) t2 p
      else compare_recursive c v1 v2 (joinPath p k1) ++ mergeDiff c t1 t2 p
termination_by l1 l2 => l1.length + l2.length

/-- C9's reachability predicate: true iff the index walk of
`ordered_loop`, started at `i`, ever takes the `(None, None)` arm —
the arm that is `unreachable!()` in Rust. -/
def loop_hits_unreachable (l1 l2 : List Value) (i : ℕ) : Bool :=
  if i < max l1.length l2.length then
    (match l1[i]?, l2[i]? with
     | none, none => true
     | _, _ => false) ||
    loop_hits_unreachable l1 l2 (i + 1)
  else false
termination_by max l1.length l2.length - i

mutual
/-- Reflexive-leaf condition for C2: every float leaf `f` satisfies
`values_equal c f f` under configuration `c` (non-float leaves are always
reflexively equal). -/
def reflOK (c : DeepDiff) : Value → Bool
  | .float f => values_equal c (.float f) (.float f)
  | .array xs => reflOKList c xs
  | .dict es => reflOKKVList c es
  | _ => true

/-- `reflOK` over an array's elements. -/
def reflOKList (c : DeepDiff) : List Value → Bool
  | [] => true
  | x :: t => reflOK c x && reflOKList c t

/-- `reflOK` over a dict's entry values. -/
def reflOKKVList (c : DeepDiff) : List (String × Value) → Bool
  | [] => true
  | e :: t => reflOK c e.2 && reflOKKVList c t
end

mutual
/-- Plain-float condition for C3's amended claim: no float leaf is `-0.0`
or NaN, the two float shapes that are equal to a value with a different
bit pattern. -/
def plainFloats : Value → Bool
  | .float .negZero => false
  | .float .nan => false
  | .float _ => true
  | .array xs => plainFloatsList xs
  | .dict es => plainFloatsKVList es
  | _ => true

/-- `plainFloats` over an array's elements. -/
def plainFloatsList : List Value → Bool
  | [] => true
  | x :: t => plainFloats x && plainFloatsList t

/-- `plainFloats` over a dict's entry values. -/
def plainFloatsKVList : List (String × Value) → Bool
  | [] => true
  | e :: t => plainFloats e.2 && plainFloatsKVList t
end

/-!
## Induction principle and basic lemmas
-/

lemma msize_mem_le {x : Value} {xs : List Value} (h : x ∈ xs) : x.msize ≤ msizeList xs := by
  induction xs with
  | nil => cases h
  | cons y t ih =>
      rcases List.mem_cons.mp h with rfl | hm
      · simp only [msizeList]; omega
      · have := ih hm; simp only [msizeList]; omega

lemma msize_entry_le {e : String × Value} {es : List (String × Value)} (h : e ∈ es) :
    e.2.msize ≤ msizeKVList es := by
  induction es with
  | nil => cases h
  | cons y t ih =>
      rcases List.mem_cons.mp h with rfl | hm
      · simp only [msizeKVList]; omega
      · have := ih hm; simp only [msizeKVList]; omega

/-- Structural induction over `Value` with membership hypotheses for the
nested lists. -/
theorem Value.inductionOn {P : Value → Prop}
    (hint : ∀ i, P (.int i)) (hfloat : ∀ f, P (.float f))
    (hstr : ∀ s, P (.str s)) (hbool : ∀ b, P (.bool b))
    (harr : ∀ xs, (∀ x ∈ xs, P x) → P (.array xs))
    (hdict : ∀ es, (∀ e ∈ es, P e.2) → P (.dict es)) :
    ∀ v, P v := by
  have main : ∀ n v, v.msize ≤ n → P v := by
    intro n
    induction n with
    | zero => intro v hv; have := msize_pos v; omega
    | succ m ih =>
        intro v hv
        cases v with
        | int i => exact hint i
        | float f => exact hfloat f
        | str s => exact hstr s
        | bool b => exact hbool b
        | array xs =>
            refine harr xs fun x hx => ih x ?_
            have h1 := msize_mem_le hx
            simp only [Value.msize] at hv; omega
        | dict es =>
            refine hdict es fun e he => ih e.2 ?_
            have h1 := msize_entry_le he
            simp only [Value.msize] at hv; omega
  exact fun v => main v.msize v le_rfl

lemma insertVal_perm (x : Value) (l : List Value) : List.Perm (insertVal x l) (x :: l) := by
  induction l with
  | nil => simp [insertVal]
  | cons y ys ih =>
      rw [insertVal]
      split
      · exact (ih.cons y).trans (List.Perm.swap x y ys)
      · exact List.Perm.refl _

lemma sortValues_perm (l : List Value) : List.Perm (sortValues l) l := by
  induction l with
  | nil => simp [sortValues]
  | cons x t ih =>
      show List.Perm (insertVal x (sortValues t)) (x :: t)
      exact (insertVal_perm x (sortValues t)).trans (ih.cons x)

lemma mem_sortValues {x : Value} {l : List Value} (h : x ∈ sortValues l) : x ∈ l :=
  (sortValues_perm l).mem_iff.mp h

/-!
## Symmetry of leaf equality
-/

lemma F64.cmpNum_swap (a b : F64) :
    F64.cmpNum a b = (F64.cmpNum b a).map Ordering.swap := by
  cases a <;> cases b <;>
    simp only [F64.cmpNum, F64.toRat?, Option.map_some, Option.map_none, Ordering.swap] <;>
    try rfl
  all_goals split_ifs <;> first | rfl | (exfalso; linarith)

lemma F64.beq_comm (a b : F64) : F64.beq a b = F64.beq b a := by
  rw [F64.beq, F64.beq, F64.cmpNum_swap]
  cases F64.cmpNum b a with
  | none => rfl
  | some o => cases o <;> rfl

lemma F64.sub_abs_symm (a b : F64) : (F64.sub a b).abs = (F64.sub b a).abs := by
  cases a <;> cases b <;> simp only [F64.sub] <;> try rfl
  all_goals try split_ifs
  all_goals simp only [F64.abs]
  all_goals try split_ifs
  all_goals first | rfl | (congr 1 <;> linarith) | (exfalso <;> linarith) | (simp_all <;> try linarith)

lemma F64.max_abs_symm (a b : F64) :
    F64.max (F64.abs a) (F64.abs b) = F64.max (F64.abs b) (F64.abs a) := by
  cases a <;> cases b <;> simp only [F64.abs] <;> try rfl
  all_goals try split_ifs
  all_goals simp only [F64.max, F64.isNan, F64.cmpNum, F64.toRat?, Bool.false_eq_true,
    if_false, if_true]
  all_goals try split_ifs
  all_goals first | rfl | (congr 1 <;> linarith) | (exfalso <;> linarith) | (simp_all <;> try linarith) | simp_all

mutual
lemma Value.beq_symm : ∀ v1 v2 : Value, Value.beq v1 v2 = Value.beq v2 v1
  | .int a, .int b => by simp [Value.beq, eq_comm]
  | .float a, .float b => by
      simp only [Value.beq, F64.beq_comm a b, Bool.and_comm]
  | .str a, .str b => by simp [Value.beq, eq_comm]
  | .bool a, .bool b => by simp [Value.beq, eq_comm]
  | .array a, .array b => by simp only [Value.beq]; exact beqList_symm a b
  | .dict a, .dict b => by simp only [Value.beq]; exact beqKVList_symm a b
  | .int _, .float _ => rfl
  | .int _, .str _ => rfl
  | .int _, .bool _ => rfl
  | .int _, .array _ => rfl
  | .int _, .dict _ => rfl
  | .float _, .int _ => rfl
  | .float _, .str _ => rfl
  | .float _, .bool _ => rfl
  | .float _, .array _ => rfl
  | .float _, .dict _ => rfl
  | .str _, .int _ => rfl
  | .str _, .float _ => rfl
  | .str _, .bool _ => rfl
  | .str _, .array _ => rfl
  | .str _, .dict _ => rfl
  | .bool _, .int _ => rfl
  | .bool _, .float _ => rfl
  | .bool _, .str _ => rfl
  | .bool _, .array _ => rfl
  | .bool _, .dict _ => rfl
  | .array _, .int _ => rfl
  | .array _, .float _ => rfl
  | .array _, .str _ => rfl
  | .array _, .bool _ => rfl
  | .array _, .dict _ => rfl
  | .dict _, .int _ => rfl
  | .dict _, .float _ => rfl
  | .dict _, .str _ => rfl
  | .dict _, .bool _ => rfl
  | .dict _, .array _ => rfl

lemma beqList_symm : ∀ l1 l2 : List Value, beqList l1 l2 = beqList l2 l1
  | [], [] => rfl
  | [], _ :: _ => rfl
  | _ :: _, [] => rfl
  | x :: xs, y :: ys => by
      simp only [beqList, Value.beq_symm x y, beqList_symm xs ys]

lemma beqKVList_symm : ∀ l1 l2 : List (String × Value), beqKVList l1 l2 = beqKVList l2 l1
  | [], [] => rfl
  | [], _ :: _ => rfl
  | _ :: _, [] => rfl
  | (k1, v1) :: xs, (k2, v2) :: ys => by
      simp only [beqKVList, Value.beq_symm v1 v2, beqKVList_symm xs ys]
      by_cases h : k1 = k2
      · subst h; rfl
      · rw [beq_false_of_ne h, beq_false_of_ne (Ne.symm h)]
end

lemma values_equal_symm (c : DeepDiff) (v1 v2 : Value) :
    values_equal c v1 v2 = values_equal c v2 v1 := by
  cases v1 <;> cases v2 <;>
    simp only [values_equal] <;>
    try exact Value.beq_symm _ _
  rename_i f1 f2
  cases c.float_tolerance with
  | none => exact F64.beq_comm f1 f2
  | some tol =>
      simp only
      rw [F64.sub_abs_symm, F64.max_abs_symm]

/-!
## Duality of the array walk (towards C4)
-/

lemma ordered_loop_dual (c : DeepDiff) (l1 l2 : List Value) (p : String)
    (H : ∀ v1 ∈ l1, ∀ v2 ∈ l2, ∀ p',
      List.Perm (compare_recursive c v2 v1 p') ((compare_recursive c v1 v2 p').map dualDiff)) :
    ∀ i, List.Perm (ordered_loop c l2 l1 p i) ((ordered_loop c l1 l2 p i).map dualDiff) := by
  have main : ∀ n i, max l1.length l2.length - i ≤ n →
      List.Perm (ordered_loop c l2 l1 p i) ((ordered_loop c l1 l2 p i).map dualDiff) := by
    intro n
    induction n with
    | zero =>
        intro i hi
        have h1 : ¬ i < max l1.length l2.length := by omega
        have h2 : ¬ i < max l2.length l1.length := by omega
        rw [ordered_loop_eq c l2 l1 p i, ordered_loop_eq c l1 l2 p i, if_neg h2, if_neg h1]
        simp
    | succ m ih =>
        intro i hi
        by_cases hlt : i < max l1.length l2.length
        · have hlt2 : i < max l2.length l1.length := by omega
          rw [ordered_loop_eq c l2 l1 p i, ordered_loop_eq c l1 l2 p i, if_pos hlt2, if_pos hlt]
          rw [List.map_append]
          refine List.Perm.append ?_ (ih (i + 1) (by omega))
          rcases h1 : l1[i]? with _ | v1 <;> rcases h2 : l2[i]? with _ | v2 <;>
            simp only [h1, h2]
          · simp
          · simp [dualDiff]
          · simp [dualDiff]
          · exact H v1 (List.getElem?_mem h1) v2 (List.getElem?_mem h2) _
        · have hlt2 : ¬ i < max l2.length l1.length := by omega
          rw [ordered_loop_eq c l2 l1 p i, ordered_loop_eq c l1 l2 p i, if_neg hlt2, if_neg hlt]
          simp
  exact fun i => main (max l1.length l2.length - i) i le_rfl

/-!
## Dict-level lemmas (towards C4 and C5)
-/

lemma drl_nil (c : DeepDiff) (d2 : List (String × Value)) (p : String) :
    dicts_removed_loop c [] d2 p = [] := by
  rw [dicts_removed_loop]

/-- One-step unfolding of the first dict loop with the dependent match
hypothesis erased. -/
lemma drl_cons (c : DeepDiff) (k : String) (v1 : Value) (t1 d2 : List (String × Value))
    (p : String) :
    dicts_removed_loop c ((k, v1) :: t1) d2 p =
      (match lookupKV k d2 with
       | some v2 => compare_recursive c v1 v2 (joinPath p k)
       | none => [Diff.removed (joinPath p k) v1]) ++
      dicts_removed_loop c t1 d2 p := by
  rw [dicts_removed_loop]
  congr 1
  rcases h : lookupKV k d2 with _ | v2 <;> simp [h]

lemma lookupKV_cons_ne {k k' : String} (v' : Value) (t : List (String × Value))
    (h : k' ≠ k) : lookupKV k ((k', v') :: t) = lookupKV k t := by
  simp [lookupKV, h]

lemma lookupKV_eq_none {k : String} {d : List (String × Value)}
    (h : ∀ e ∈ d, e.1 ≠ k) : lookupKV k d = none := by
  induction d with
  | nil => rfl
  | cons e t ih =>
      obtain ⟨k', v'⟩ := e
      rw [lookupKV_cons_ne v' t (h (k', v') (by simp))]
      exact ih fun e he => h e (by simp [he])

lemma keysStrictSorted_cons {e : String × Value} {t : List (String × Value)}
    (h : keysStrictSorted (e :: t) = true) : keysStrictSorted t = true := by
  cases t with
  | nil => rfl
  | cons e2 t2 =>
      rw [keysStrictSorted] at h
      exact (Bool.and_eq_true_iff.mp h).2

lemma keysStrictSorted_pairwise : ∀ {es : List (String × Value)},
    keysStrictSorted es = true → List.Pairwise (fun a b => a.1 < b.1) es
  | [], _ => List.Pairwise.nil
  | [e], _ => by simp
  | e :: e2 :: t2, h => by
      have ht : keysStrictSorted (e2 :: t2) = true := keysStrictSorted_cons h
      have hp := keysStrictSorted_pairwise ht
      refine List.Pairwise.cons ?_ hp
      have he : e.1 < e2.1 := by
        rw [keysStrictSorted] at h
        exact of_decide_eq_true (Bool.and_eq_true_iff.mp h).1
      intro b hb
      rcases List.mem_cons.mp hb with rfl | hb2
      · exact he
      · exact lt_trans he (List.rel_of_pairwise_cons hp hb2)

lemma compare_dicts_eq (c : DeepDiff) (d1 d2 : List (String × Value)) (p : String) :
    compare_dicts c d1 d2 p = dicts_removed_loop c d1 d2 p ++ added_entries d1 d2 p := by
  rw [compare_dicts]

lemma added_entries_nil_left (d2 : List (String × Value)) (p : String) :
    added_entries [] d2 p = d2.map fun e => Diff.added (joinPath p e.1) e.2 := by
  simp [added_entries, containsKey, lookupKV]

lemma added_entries_nil_right (d1 : List (String × Value)) (p : String) :
    added_entries d1 [] p = [] := rfl

lemma drl_lookup_all_none (c : DeepDiff) (d1 : List (String × Value)) (p : String) :
    dicts_removed_loop c d1 [] p = d1.map fun e => Diff.removed (joinPath p e.1) e.2 := by
  induction d1 with
  | nil => exact drl_nil c [] p
  | cons e t ih =>
      obtain ⟨k, v⟩ := e
      rw [drl_cons]
      show (match lookupKV k [] with
        | some v2 => compare_recursive c v v2 (joinPath p k)
        | none => [Diff.removed (joinPath p k) v]) ++ dicts_removed_loop c t [] p = _
      rw [show lookupKV k [] = none from rfl]
      simp [ih]

lemma mergeDiff_nil_left (c : DeepDiff) (d2 : List (String × Value)) (p : String) :
    mergeDiff c [] d2 p = d2.map fun e => Diff.added (joinPath p e.1) e.2 := by
  induction d2 with
  | nil => rw [mergeDiff]; rfl
  | cons e t ih => obtain ⟨k, v⟩ := e; rw [mergeDiff, ih]; rfl

lemma mergeDiff_nil_right (c : DeepDiff) (d1 : List (String × Value)) (p : String) :
    mergeDiff c d1 [] p = d1.map fun e => Diff.removed (joinPath p e.1) e.2 := by
  induction d1 with
  | nil => rw [mergeDiff]; rfl
  | cons e t ih => obtain ⟨k, v⟩ := e; rw [mergeDiff, ih]; rfl

lemma drl_congr (c : DeepDiff) {d1 d2 d2' : List (String × Value)} (p : String)
    (h : ∀ e ∈ d1, lookupKV e.1 d2 = lookupKV e.1 d2') :
    dicts_removed_loop c d1 d2 p = dicts_removed_loop c d1 d2' p := by
  induction d1 with
  | nil => rw [drl_nil, drl_nil]
  | cons e t ih =>
      obtain ⟨k, v⟩ := e
      rw [drl_cons, drl_cons, h (k, v) (by simp),
        ih fun e he => h e (List.mem_cons_of_mem _ he)]

lemma added_entries_cons_left_ne {k : String} (v : Value)
    {t1 d2 : List (String × Value)} (p : String) (h : ∀ e ∈ d2, e.1 ≠ k) :
    added_entries ((k, v) :: t1) d2 p = added_entries t1 d2 p := by
  unfold added_entries
  congr 1
  refine List.filter_congr fun e he => ?_
  have : lookupKV e.1 ((k, v) :: t1) = lookupKV e.1 t1 :=
    lookupKV_cons_ne v t1 fun hk => (h e he) hk.symm
  simp [containsKey, this]

lemma added_entries_cons_hit {d1 : List (String × Value)} {k : String} (v : Value)
    (t2 : List (String × Value)) (p : String) (h : containsKey d1 k = false) :
    added_entries d1 ((k, v) :: t2) p =
      Diff.added (joinPath p k) v :: added_entries d1 t2 p := by
  simp [added_entries, List.filter_cons, h]

lemma added_entries_cons_skip {d1 : List (String × Value)} {k : String} (v : Value)
    (t2 : List (String × Value)) (p : String) (h : containsKey d1 k = true) :
    added_entries d1 ((k, v) :: t2) p = added_entries d1 t2 p := by
  simp [added_entries, List.filter_cons, h]

lemma compare_dicts_perm_merge (c : DeepDiff) :
    ∀ n (d1 d2 : List (String × Value)) (p : String), d1.length + d2.length ≤ n →
      keysStrictSorted d1 = true → keysStrictSorted d2 = true →
      List.Perm (compare_dicts c d1 d2 p) (mergeDiff c d1 d2 p) := by
  intro n
  induction n with
  | zero =>
      intro d1 d2 p hlen _ _
      have h1 : d1 = [] := List.eq_nil_of_length_eq_zero (by omega)
      have h2 : d2 = [] := List.eq_nil_of_length_eq_zero (by omega)
      subst h1; subst h2
      rw [compare_dicts_eq, drl_nil, added_entries_nil_right, mergeDiff]
      simp
  | succ m ih =>
      intro d1 d2 p hlen hs1 hs2
      cases d1 with
      | nil =>
          rw [compare_dicts_eq, drl_nil, added_entries_nil_left, mergeDiff_nil_left]
          exact List.Perm.refl _
      | cons e1 t1 =>
          obtain ⟨k1, v1⟩ := e1
          cases d2 with
          | nil =>
              rw [compare_dicts_eq, drl_lookup_all_none, added_entries_nil_right,
                mergeDiff_nil_right]
              simp
          | cons e2 t2 =>
              obtain ⟨k2, v2⟩ := e2
              have hp1 := keysStrictSorted_pairwise hs1
              have hp2 := keysStrictSorted_pairwise hs2
              have ht1 : keysStrictSorted t1 = true := keysStrictSorted_cons hs1
              have ht2 : keysStrictSorted t2 = true := keysStrictSorted_cons hs2
              obtain ⟨hk1all, _⟩ := List.pairwise_cons.mp hp1
              obtain ⟨hk2all, _⟩ := List.pairwise_cons.mp hp2
              rcases lt_trichotomy k1 k2 with hlt | heq | hgt
              · -- k1 < k2 : k1 is absent from d2, emitted as Removed first
                have hall : ∀ e ∈ (k2, v2) :: t2, k1 < e.1 := by
                  intro e he
                  rcases List.mem_cons.mp he with rfl | he2
                  · exact hlt
                  · exact lt_trans hlt (hk2all e he2)
                have hnone : lookupKV k1 ((k2, v2) :: t2) = none :=
                  lookupKV_eq_none fun e he => ne_of_gt (hall e he)
                rw [compare_dicts_eq, drl_cons, hnone]
                rw [added_entries_cons_left_ne v1 p fun e he => ne_of_gt (hall e he)]
                rw [mergeDiff, if_pos hlt]
                have := (ih t1 ((k2, v2) :: t2) p (by simp at hlen ⊢; omega) ht1 hs2)
                rw [compare_dicts_eq] at this
                simpa using this.cons (Diff.removed (joinPath p k1) v1)
              · -- k1 = k2 : common key, recurse
                subst heq
                have hhit : lookupKV k1 ((k1, v2) :: t2) = some v2 := by simp [lookupKV]
                rw [compare_dicts_eq, drl_cons, hhit]
                rw [drl_congr c p fun e he =>
                  lookupKV_cons_ne v2 t2 (ne_of_lt (hk1all e he))]
                rw [added_entries_cons_skip v2 t2 p
                  (by simp [containsKey, lookupKV])]
                rw [added_entries_cons_left_ne v1 p
                  (fun e he => ne_of_gt (hk2all e he))]
                rw [mergeDiff, if_neg (lt_irrefl k1), if_neg (lt_irrefl k1)]
                rw [List.append_assoc]
                have hperm := ih t1 t2 p (by simp at hlen ⊢; omega) ht1 ht2
                rw [compare_dicts_eq] at hperm
                exact List.Perm.append_left _ hperm
              · -- k2 < k1 : k2 is only in d2, emitted as Added
                have hall : ∀ e ∈ (k1, v1) :: t1, k2 < e.1 := by
                  intro e he
                  rcases List.mem_cons.mp he with rfl | he2
                  · exact hgt
                  · exact lt_trans hgt (hk1all e he2)
                have hcont : containsKey ((k1, v1) :: t1) k2 = false := by
                  have hn : lookupKV k2 ((k1, v1) :: t1) = none :=
                    lookupKV_eq_none fun e he => ne_of_gt (hall e he)
                  simp [containsKey, hn]
                rw [compare_dicts_eq]
                rw [drl_congr c p fun e he =>
                  lookupKV_cons_ne v2 t2 (ne_of_lt (hall e he))]
                rw [added_entries_cons_hit v2 t2 p hcont]
                rw [mergeDiff, if_neg (lt_asymm hgt), if_pos hgt]
                have hperm := ih ((k1, v1) :: t1) t2 p (by simp at hlen ⊢; omega) hs1 ht2
                rw [compare_dicts_eq] at hperm
                exact List.Perm.trans List.perm_middle (hperm.cons _)

lemma mergeDiff_cons_cons (c : DeepDiff) (k1 : String) (v1 : Value)
    (t1 : List (String × Value)) (k2 : String) (v2 : Value)
    (t2 : List (String × Value)) (p : String) :
    mergeDiff c ((k1, v1) :: t1) ((k2, v2) :: t2) p =
      if k1 < k2 then Diff.removed (joinPath p k1) v1 :: mergeDiff c t1 ((k2, v2) :: t2) p
      else if k2 < k1 then Diff.added (joinPath p k2) v2 :: mergeDiff c ((k1, v1) :: t1) t2 p
      else compare_recursive c v1 v2 (joinPath p k1) ++ mergeDiff c t1 t2 p := by
  rw [mergeDiff]

lemma mergeDiff_dual (c : DeepDiff) (p : String) :
    ∀ n (d1 d2 : List (String × Value)), d1.length + d2.length ≤ n →
      (∀ e1 ∈ d1, ∀ e2 ∈ d2, ∀ p' : String,
        List.Perm (compare_recursive c e2.2 e1.2 p')
          ((compare_recursive c e1.2 e2.2 p').map dualDiff)) →
      List.Perm (mergeDiff c d2 d1 p) ((mergeDiff c d1 d2 p).map dualDiff) := by
  intro n
  induction n with
  | zero =>
      intro d1 d2 hlen _
      have h1 : d1 = [] := List.eq_nil_of_length_eq_zero (by omega)
      have h2 : d2 = [] := List.eq_nil_of_length_eq_zero (by omega)
      subst h1; subst h2
      rw [mergeDiff]
      simp [mergeDiff]
  | succ m ih =>
      intro d1 d2 hlen H
      cases d1 with
      | nil =>
          rw [mergeDiff_nil_right, mergeDiff_nil_left, List.map_map]
          have : (dualDiff ∘ fun e : String × Value => Diff.added (joinPath p e.1) e.2) =
              fun e : String × Value => Diff.removed (joinPath p e.1) e.2 := by
            funext e; simp [dualDiff, Function.comp]
          rw [this]
      | cons e1 t1 =>
          obtain ⟨k1, v1⟩ := e1
          cases d2 with
          | nil =>
              rw [mergeDiff_nil_left, mergeDiff_nil_right, List.map_map]
              have : (dualDiff ∘ fun e : String × Value => Diff.removed (joinPath p e.1) e.2) =
                  fun e : String × Value => Diff.added (joinPath p e.1) e.2 := by
                funext e; simp [dualDiff, Function.comp]
              rw [this]
          | cons e2 t2 =>
              obtain ⟨k2, v2⟩ := e2
              rcases lt_trichotomy k1 k2 with hlt | heq | hgt
              · rw [mergeDiff_cons_cons c k2 v2 t2 k1 v1 t1 p,
                  if_neg (lt_asymm hlt), if_pos hlt]
                rw [mergeDiff_cons_cons c k1 v1 t1 k2 v2 t2 p, if_pos hlt]
                rw [List.map_cons]
                refine List.Perm.cons _ ?_
                exact ih t1 ((k2, v2) :: t2) (by simp at hlen ⊢; omega)
                  fun e1 he1 e2 he2 p' => H e1 (List.mem_cons_of_mem _ he1) e2 he2 p'
              · subst heq
                rw [mergeDiff_cons_cons c k1 v2 t2 k1 v1 t1 p,
                  if_neg (lt_irrefl k1), if_neg (lt_irrefl k1)]
                rw [mergeDiff_cons_cons c k1 v1 t1 k1 v2 t2 p,
                  if_neg (lt_irrefl k1), if_neg (lt_irrefl k1)]
                rw [List.map_append]
                refine List.Perm.append ?_ ?_
                · exact H (k1, v1) (by simp) (k1, v2) (by simp) _
                · exact ih t1 t2 (by simp at hlen ⊢; omega)
                    fun e1 he1 e2 he2 p' =>
                      H e1 (List.mem_cons_of_mem _ he1) e2 (List.mem_cons_of_mem _ he2) p'
              · rw [mergeDiff_cons_cons c k2 v2 t2 k1 v1 t1 p, if_pos hgt]
                rw [mergeDiff_cons_cons c k1 v1 t1 k2 v2 t2 p,
                  if_neg (lt_asymm hgt), if_pos hgt]
                rw [List.map_cons]
                refine List.Perm.cons _ ?_
                exact ih ((k1, v1) :: t1) t2 (by simp at hlen ⊢; omega)
                  fun e1 he1 e2 he2 p' => H e1 he1 e2 (List.mem_cons_of_mem _ he2) p'

lemma wf_array_mem {xs : List Value} {x : Value}
    (h : Value.wf (.array xs) = true) (hm : x ∈ xs) : Value.wf x = true := by
  rw [Value.wf] at h
  induction xs with
  | nil => cases hm
  | cons y t ih =>
      rw [wfList] at h
      obtain ⟨h1, h2⟩ := Bool.and_eq_true_iff.mp h
      rcases List.mem_cons.mp hm with rfl | hm2
      · exact h1
      · exact ih h2 hm2

lemma wf_dict_sorted {es : List (String × Value)}
    (h : Value.wf (.dict es) = true) : keysStrictSorted es = true := by
  rw [Value.wf] at h
  exact (Bool.and_eq_true_iff.mp h).1

lemma wfKVList_mem {es : List (String × Value)} {e : String × Value}
    (h : wfKVList es = true) (hm : e ∈ es) : Value.wf e.2 = true := by
  induction es with
  | nil => cases hm
  | cons y t ih =>
      rw [wfKVList] at h
      obtain ⟨ha, hb⟩ := Bool.and_eq_true_iff.mp h
      rcases List.mem_cons.mp hm with rfl | hm2
      · exact ha
      · exact ih hb hm2

lemma wf_dict_mem {es : List (String × Value)} {e : String × Value}
    (h : Value.wf (.dict es) = true) (hm : e ∈ es) : Value.wf e.2 = true := by
  rw [Value.wf] at h
  exact wfKVList_mem (Bool.and_eq_true_iff.mp h).2 hm

lemma compare_recursive_leaf_dual (c : DeepDiff) (v1 v2 : Value) (p : String)
    (h : compare_recursive c v1 v2 p =
      if values_equal c v1 v2 then [] else [Diff.changed p v1 v2])
    (h' : compare_recursive c v2 v1 p =
      if values_equal c v2 v1 then [] else [Diff.changed p v2 v1]) :
    List.Perm (compare_recursive c v2 v1 p)
      ((compare_recursive c v1 v2 p).map dualDiff) := by
  rw [h, h', values_equal_symm c v2 v1]
  cases hve : values_equal c v1 v2 <;> simp [dualDiff]

/-- Removed/Added duality of the recursive walk (core of C4): swapping
the two inputs permutes the diff list through `dualDiff`. -/
lemma compare_recursive_dual :
    ∀ n (v1 v2 : Value) (c : DeepDiff) (p : String), v1.msize + v2.msize ≤ n →
      Value.wf v1 = true → Value.wf v2 = true →
      List.Perm (compare_recursive c v2 v1 p)
        ((compare_recursive c v1 v2 p).map dualDiff) := by
  intro n
  induction n with
  | zero =>
      intro v1 v2 c p hs _ _
      have := msize_pos v1; have := msize_pos v2; omega
  | succ m ih =>
      intro v1 v2 c p hs hw1 hw2
      cases v1 <;> cases v2
      case dict.dict d1 d2 =>
        simp only [compare_recursive]
        have hs1 := wf_dict_sorted hw1
        have hs2 := wf_dict_sorted hw2
        have hm1 := compare_dicts_perm_merge c (d2.length + d1.length) d2 d1 p le_rfl hs2 hs1
        have hm2 := compare_dicts_perm_merge c (d1.length + d2.length) d1 d2 p le_rfl hs1 hs2
        have hH : ∀ e1 ∈ d1, ∀ e2 ∈ d2, ∀ p' : String,
            List.Perm (compare_recursive c e2.2 e1.2 p')
              ((compare_recursive c e1.2 e2.2 p').map dualDiff) := by
          intro e1 he1 e2 he2 p'
          refine ih e1.2 e2.2 c p' ?_ (wf_dict_mem hw1 he1) (wf_dict_mem hw2 he2)
          have b1 := msize_entry_le he1
          have b2 := msize_entry_le he2
          simp only [Value.msize] at hs
          omega
        have hdual := mergeDiff_dual c p (d1.length + d2.length) d1 d2 le_rfl hH
        exact hm1.trans (hdual.trans ((hm2.map dualDiff).symm))
      case array.array a1 a2 =>
        simp only [compare_recursive, compare_arrays]
        have hH : ∀ x1 ∈ a1, ∀ x2 ∈ a2, ∀ p' : String,
            List.Perm (compare_recursive c x2 x1 p')
              ((compare_recursive c x1 x2 p').map dualDiff) := by
          intro x1 hx1 x2 hx2 p'
          refine ih x1 x2 c p' ?_ (wf_array_mem hw1 hx1) (wf_array_mem hw2 hx2)
          have b1 := msize_mem_le hx1
          have b2 := msize_mem_le hx2
          simp only [Value.msize] at hs
          omega
        cases hio : c.ignore_order
        · simp only [Bool.false_eq_true, if_false]
          exact ordered_loop_dual c a1 a2 p hH 0
        · simp only [if_true]
          simp only [compare_arrays_unordered]
          refine ordered_loop_dual c (sortValues a1) (sortValues a2) p ?_ 0
          intro x1 hx1 x2 hx2 p'
          exact hH x1 (mem_sortValues hx1) x2 (mem_sortValues hx2) p'
      all_goals
        exact compare_recursive_leaf_dual c _ _ p (by simp only [compare_recursive])
          (by simp only [compare_recursive])

/-!
## Idempotence machinery (towards C2)
-/

lemma lookupKV_self {es : List (String × Value)} (hs : keysStrictSorted es = true)
    {k : String} {v : Value} (hm : (k, v) ∈ es) : lookupKV k es = some v := by
  induction es with
  | nil => cases hm
  | cons e t ih =>
      obtain ⟨k', v'⟩ := e
      have hp := keysStrictSorted_pairwise hs
      rcases List.mem_cons.mp hm with heq | hm2
      · cases heq
        simp [lookupKV]
      · have hklt : k' < k := by
          have := List.rel_of_pairwise_cons hp hm2
          exact this
        rw [lookupKV_cons_ne v' t (ne_of_lt hklt)]
        exact ih (keysStrictSorted_cons hs) hm2

lemma drl_eq_nil (c : DeepDiff) {d1 d2 : List (String × Value)} (p : String)
    (H1 : ∀ e ∈ d1, lookupKV e.1 d2 = some e.2)
    (H2 : ∀ e ∈ d1, ∀ p' : String, compare_recursive c e.2 e.2 p' = []) :
    dicts_removed_loop c d1 d2 p = [] := by
  induction d1 with
  | nil => exact drl_nil c d2 p
  | cons e t ih =>
      obtain ⟨k, v⟩ := e
      rw [drl_cons, H1 (k, v) (by simp)]
      simp only [H2 (k, v) (by simp) (joinPath p k), List.nil_append]
      exact ih (fun e he => H1 e (List.mem_cons_of_mem _ he))
        (fun e he => H2 e (List.mem_cons_of_mem _ he))

lemma added_entries_eq_nil {d1 d2 : List (String × Value)} (p : String)
    (H : ∀ e ∈ d2, containsKey d1 e.1 = true) : added_entries d1 d2 p = [] := by
  unfold added_entries
  have : List.filter (fun e => !containsKey d1 e.1) d2 = [] := by
    rw [List.filter_eq_nil_iff]
    intro e he
    simp [H e he]
  rw [this]
  rfl

lemma ordered_loop_self (c : DeepDiff) (l : List Value) (p : String)
    (H : ∀ x ∈ l, ∀ p' : String, compare_recursive c x x p' = []) :
    ∀ i, ordered_loop c l l p i = [] := by
  have main : ∀ n i, l.length - i ≤ n → ordered_loop c l l p i = [] := by
    intro n
    induction n with
    | zero =>
        intro i hi
        rw [ordered_loop_eq, if_neg (by simp; omega)]
    | succ m ihn =>
        intro i hi
        by_cases hlt : i < l.length
        · rw [ordered_loop_eq, if_pos (by simp [hlt])]
          have hx : l[i]? = some l[i] := List.getElem?_eq_getElem hlt
          rw [hx]
          simp only [H l[i] (l.getElem_mem hlt) _, List.nil_append]
          exact ihn (i + 1) (by omega)
        · rw [ordered_loop_eq, if_neg (by simp; omega)]
  exact fun i => main (l.length - i) i le_rfl

lemma reflOK_array_mem {c : DeepDiff} {xs : List Value} {x : Value}
    (h : reflOK c (.array xs) = true) (hm : x ∈ xs) : reflOK c x = true := by
  rw [reflOK] at h
  induction xs with
  | nil => cases hm
  | cons y t ih =>
      rw [reflOKList] at h
      obtain ⟨h1, h2⟩ := Bool.and_eq_true_iff.mp h
      rcases List.mem_cons.mp hm with rfl | hm2
      · exact h1
      · exact ih h2 hm2

lemma reflOK_dict_mem {c : DeepDiff} {es : List (String × Value)} {e : String × Value}
    (h : reflOK c (.dict es) = true) (hm : e ∈ es) : reflOK c e.2 = true := by
  rw [reflOK] at h
  induction es with
  | nil => cases hm
  | cons y t ih =>
      rw [reflOKKVList] at h
      obtain ⟨h1, h2⟩ := Bool.and_eq_true_iff.mp h
      rcases List.mem_cons.mp hm with rfl | hm2
      · exact h1
      · exact ih h2 hm2

/-- Idempotence of the walk on reflexively-equal well-formed values
(core of the amended C2). -/
lemma compare_recursive_self (c : DeepDiff) :
    ∀ v : Value, Value.wf v = true → reflOK c v = true →
      ∀ p, compare_recursive c v v p = [] := by
  refine Value.inductionOn ?_ ?_ ?_ ?_ ?_ ?_
  · intro i _ _ p; simp [compare_recursive, values_equal, Value.beq]
  · intro f _ hr p
    rw [reflOK] at hr
    simp only [compare_recursive, hr, if_true]
  · intro s _ _ p; simp [compare_recursive, values_equal, Value.beq]
  · intro b _ _ p; simp [compare_recursive, values_equal, Value.beq]
  · intro xs ihx hw hr p
    have H : ∀ x ∈ xs, ∀ p' : String, compare_recursive c x x p' = [] :=
      fun x hx p' => ihx x hx (wf_array_mem hw hx) (reflOK_array_mem hr hx) p'
    simp only [compare_recursive, compare_arrays]
    cases hio : c.ignore_order
    · simp only [Bool.false_eq_true, if_false]
      exact ordered_loop_self c xs p H 0
    · simp only [if_true, compare_arrays_unordered]
      exact ordered_loop_self c (sortValues xs) p
        (fun x hx p' => H x (mem_sortValues hx) p') 0
  · intro es ihe hw hr p
    have hs := wf_dict_sorted hw
    simp only [compare_recursive, compare_dicts_eq]
    rw [drl_eq_nil c p
      (fun e he => lookupKV_self hs (by simpa using he))
      (fun e he p' => ihe e he (wf_dict_mem hw he) (reflOK_dict_mem hr he) p')]
    rw [added_entries_eq_nil p
      (fun e he => by simp [containsKey, lookupKV_self hs (by simpa using he)])]
    rfl

/-!
## Walk-shape lemmas (towards C6, C7, C9)
-/

lemma ordered_loop_no_index (c : DeepDiff) (hio : c.ignore_order = true)
    (l1 l2 : List Value) (p : String) :
    ∀ i, ordered_loop c l1 l2 p i = specNoIndexWalk c (l1.drop i) (l2.drop i) p := by
  have main : ∀ n i, max l1.length l2.length - i ≤ n →
      ordered_loop c l1 l2 p i = specNoIndexWalk c (l1.drop i) (l2.drop i) p := by
    intro n
    induction n with
    | zero =>
        intro i hi
        rw [ordered_loop_eq, if_neg (by omega)]
        rw [List.drop_eq_nil_of_le (show l1.length ≤ i by omega),
          List.drop_eq_nil_of_le (show l2.length ≤ i by omega)]
        rw [specNoIndexWalk]
    | succ m ih =>
        intro i hi
        by_cases hlt : i < max l1.length l2.length
        · rw [ordered_loop_eq, if_pos hlt, hio]
          rw [ih (i + 1) (by omega)]
          simp only [if_true]
          rcases h1 : l1[i]? with _ | v1 <;> rcases h2 : l2[i]? with _ | v2 <;>
            simp only [h1, h2]
          · have e1 : l1.length ≤ i := List.getElem?_eq_none_iff.mp h1
            have e2 : l2.length ≤ i := List.getElem?_eq_none_iff.mp h2
            omega
          · have e1 : l1.length ≤ i := List.getElem?_eq_none_iff.mp h1
            have hv2 : i < l2.length := by
              by_contra hcon
              rw [List.getElem?_eq_none_iff.mpr (by omega)] at h2; cases h2
            have hget : l2[i] = v2 := by
              have hg := List.getElem?_eq_getElem hv2
              rw [hg] at h2; cases h2; rfl
            rw [List.drop_eq_nil_of_le (show l1.length ≤ i + 1 by omega),
              List.drop_eq_nil_of_le (show l1.length ≤ i by omega),
              List.drop_eq_getElem_cons hv2, hget, specNoIndexWalk]
            rfl
          · have e2 : l2.length ≤ i := List.getElem?_eq_none_iff.mp h2
            have hv1 : i < l1.length := by
              by_contra hcon
              rw [List.getElem?_eq_none_iff.mpr (by omega)] at h1; cases h1
            have hget : l1[i] = v1 := by
              have hg := List.getElem?_eq_getElem hv1
              rw [hg] at h1; cases h1; rfl
            rw [List.drop_eq_nil_of_le (show l2.length ≤ i + 1 by omega),
              List.drop_eq_nil_of_le (show l2.length ≤ i by omega),
              List.drop_eq_getElem_cons hv1, hget, specNoIndexWalk]
            rfl
          · have hv1 : i < l1.length := by
              by_contra hcon
              rw [List.getElem?_eq_none_iff.mpr (by omega)] at h1; cases h1
            have hv2 : i < l2.length := by
              by_contra hcon
              rw [List.getElem?_eq_none_iff.mpr (by omega)] at h2; cases h2
            have e1 : l1[i] = v1 := by
              have hg := List.getElem?_eq_getElem hv1
              rw [hg] at h1; cases h1; rfl
            have e2 : l2[i] = v2 := by
              have hg := List.getElem?_eq_getElem hv2
              rw [hg] at h2; cases h2; rfl
            rw [List.drop_eq_getElem_cons hv1, List.drop_eq_getElem_cons hv2, e1, e2,
              specNoIndexWalk]
        · rw [ordered_loop_eq, if_neg hlt]
          rw [List.drop_eq_nil_of_le (show l1.length ≤ i by omega),
            List.drop_eq_nil_of_le (show l2.length ≤ i by omega)]
          rw [specNoIndexWalk]
  exact fun i => main (max l1.length l2.length - i) i le_rfl

lemma ordered_loop_indexed (c : DeepDiff) (hio : c.ignore_order = false)
    (l1 l2 : List Value) (p : String) :
    ∀ i, ordered_loop c l1 l2 p i =
      (List.range' i (max l1.length l2.length - i)).flatMap fun j =>
        match l1[j]?, l2[j]? with
        | some v1, some v2 => compare_recursive c v1 v2 (idxPath p j)
        | some v1, none => [Diff.removed (idxPath p j) v1]
        | none, some v2 => [Diff.added (idxPath p j) v2]
        | none, none => [] := by
  have main : ∀ n i, max l1.length l2.length - i ≤ n →
      ordered_loop c l1 l2 p i =
        (List.range' i (max l1.length l2.length - i)).flatMap fun j =>
          match l1[j]?, l2[j]? with
          | some v1, some v2 => compare_recursive c v1 v2 (idxPath p j)
          | some v1, none => [Diff.removed (idxPath p j) v1]
          | none, some v2 => [Diff.added (idxPath p j) v2]
          | none, none => [] := by
    intro n
    induction n with
    | zero =>
        intro i hi
        rw [ordered_loop_eq, if_neg (by omega)]
        rw [show max l1.length l2.length - i = 0 by omega]
        rfl
    | succ m ih =>
        intro i hi
        by_cases hlt : i < max l1.length l2.length
        · rw [ordered_loop_eq, if_pos hlt, hio]
          rw [ih (i + 1) (by omega)]
          rw [show max l1.length l2.length - i = (max l1.length l2.length - (i + 1)) + 1
            by omega]
          rw [List.range'_succ, List.flatMap_cons]
          simp only [Bool.false_eq_true, if_false]
        · rw [ordered_loop_eq, if_neg hlt]
          rw [show max l1.length l2.length - i = 0 by omega]
          rfl
  exact fun i => main (max l1.length l2.length - i) i le_rfl

lemma loop_never_unreachable : ∀ (l1 l2 : List Value) (i : ℕ),
    loop_hits_unreachable l1 l2 i = false := by
  intro l1 l2
  have main : ∀ n i, max l1.length l2.length - i ≤ n →
      loop_hits_unreachable l1 l2 i = false := by
    intro n
    induction n with
    | zero =>
        intro i hi
        rw [loop_hits_unreachable, if_neg (by omega)]
    | succ m ih =>
        intro i hi
        by_cases hlt : i < max l1.length l2.length
        · rw [loop_hits_unreachable, if_pos hlt]
          rw [ih (i + 1) (by omega)]
          rcases h1 : l1[i]? with _ | v1 <;> rcases h2 : l2[i]? with _ | v2 <;>
            simp only [h1, h2, Bool.or_false]
          have e1 : l1.length ≤ i := List.getElem?_eq_none_iff.mp h1
          have e2 : l2.length ≤ i := List.getElem?_eq_none_iff.mp h2
          omega
        · rw [loop_hits_unreachable, if_neg hlt]
  exact fun i => main (max l1.length l2.length - i) i le_rfl

/-!
## The sort used by order-insensitive comparison (towards C6)
-/

lemma F64.cmpNum_getD_swap (a b : F64) :
    (F64.cmpNum a b).getD .eq = ((F64.cmpNum b a).getD .eq).swap := by
  rw [F64.cmpNum_swap a b]
  cases F64.cmpNum b a with
  | none => rfl
  | some o => cases o <;> rfl

lemma cmpList_swap_of {xs : List Value}
    (H : ∀ x ∈ xs, ∀ y, Value.cmp x y = (Value.cmp y x).swap) :
    ∀ ys, cmpList xs ys = (cmpList ys xs).swap := by
  induction xs with
  | nil => intro ys; cases ys <;> rfl
  | cons x xs ih =>
      intro ys
      cases ys with
      | nil => rfl
      | cons y ys =>
          have hx := H x (by simp) y
          simp only [cmpList, hx]
          cases hyx : Value.cmp y x with
          | eq =>
              simp only [Ordering.swap]
              exact ih (fun a ha z => H a (List.mem_cons_of_mem _ ha) z) ys
          | lt => rfl
          | gt => rfl

lemma cmpKVList_swap_of {xs : List (String × Value)}
    (H : ∀ e ∈ xs, ∀ y, Value.cmp e.2 y = (Value.cmp y e.2).swap) :
    ∀ ys, cmpKVList xs ys = (cmpKVList ys xs).swap := by
  induction xs with
  | nil => intro ys; cases ys <;> rfl
  | cons x xs ih =>
      intro ys
      cases ys with
      | nil => rfl
      | cons y ys =>
          obtain ⟨k1, v1⟩ := x
          obtain ⟨k2, v2⟩ := y
          have hx := H (k1, v1) (by simp) v2
          simp only [cmpKVList]
          rcases lt_trichotomy k1 k2 with hlt | heq | hgt
          · rw [if_pos hlt, if_neg (lt_asymm hlt), if_pos hlt]; rfl
          · subst heq
            rw [if_neg (lt_irrefl k1), if_neg (lt_irrefl k1)]
            simp only [hx]
            cases hyx : Value.cmp v2 v1 with
            | eq =>
                simp only [Ordering.swap]
                exact ih (fun a ha z => H a (List.mem_cons_of_mem _ ha) z) ys
            | lt => rfl
            | gt => rfl
          · rw [if_neg (lt_asymm hgt), if_pos hgt, if_pos hgt]; rfl

/-- `Value.cmp` is swap-symmetric: exchanging the operands reverses the
`Ordering` (so `sort` by it is order-consistent in both directions). -/
lemma Value.cmp_swap : ∀ v1 v2 : Value, Value.cmp v1 v2 = (Value.cmp v2 v1).swap := by
  refine Value.inductionOn ?_ ?_ ?_ ?_ ?_ ?_
  · intro i v2
    cases v2 <;> simp only [Value.cmp, Value.variant_order] <;>
      split_ifs <;> first | rfl | (exfalso; omega) | (exfalso; exact absurd ‹_› (asymm ‹_›))
  · intro f v2
    cases v2 <;> simp only [Value.cmp, Value.variant_order]
    case float g => exact F64.cmpNum_getD_swap f g
    all_goals split_ifs <;> first | rfl | (exfalso; omega)
  · intro s v2
    cases v2 <;> simp only [Value.cmp, Value.variant_order] <;>
      split_ifs <;> first | rfl | (exfalso; omega) | (exfalso; exact absurd ‹_› (asymm ‹_›))
  · intro b v2
    cases v2 <;> simp only [Value.cmp, Value.variant_order]
    case bool b2 => cases b <;> cases b2 <;> rfl
    all_goals split_ifs <;> first | rfl | (exfalso; omega)
  · intro xs ih v2
    cases v2 <;> simp only [Value.cmp, Value.variant_order]
    case array ys => exact cmpList_swap_of ih ys
    all_goals split_ifs <;> first | rfl | (exfalso; omega)
  · intro es ih v2
    cases v2 <;> simp only [Value.cmp, Value.variant_order]
    case dict es2 => exact cmpKVList_swap_of ih es2
    all_goals split_ifs <;> first | rfl | (exfalso; omega)

lemma insertVal_head? (x : Value) (l : List Value) :
    (insertVal x l).head? = some x ∨ (insertVal x l).head? = l.head? := by
  cases l with
  | nil => left; rfl
  | cons y ys =>
      rw [insertVal]
      split
      · right; rfl
      · left; rfl

lemma chain'_insertVal (x : Value) :
    ∀ l, List.Chain' (fun a b => Value.cmp a b ≠ .gt) l →
      List.Chain' (fun a b => Value.cmp a b ≠ .gt) (insertVal x l) := by
  intro l
  induction l with
  | nil => intro _; simp [insertVal]
  | cons y ys ih =>
      intro hch
      rw [insertVal]
      split
      · rename_i hgt
        refine List.chain'_cons'.mpr ⟨?_, ih hch.tail⟩
        intro z hz
        rcases insertVal_head? x ys with hh | hh
        · rw [hh] at hz
          cases hz
          rw [Value.cmp_swap y x, hgt]
          simp [Ordering.swap]
        · rw [hh] at hz
          exact (List.chain'_cons'.mp hch).1 z hz
      · rename_i hngt
        exact List.chain'_cons.mpr ⟨hngt, hch⟩

/-- The sorted copies used in order-insensitive mode are ascending under
the Value total order (adjacent elements never strictly descend). -/
lemma chain'_sortValues (l : List Value) :
    List.Chain' (fun a b => Value.cmp a b ≠ .gt) (sortValues l) := by
  induction l with
  | nil => simp [sortValues]
  | cons x t ih =>
      show List.Chain' _ (insertVal x (sortValues t))
      exact chain'_insertVal x (sortValues t) ih

/-!
## Hash consistency on plain floats (towards C3)
-/

lemma plainFloats_array_mem {xs : List Value} {x : Value}
    (h : plainFloats (.array xs) = true) (hm : x ∈ xs) : plainFloats x = true := by
  rw [plainFloats] at h
  induction xs with
  | nil => cases hm
  | cons y t ih =>
      rw [plainFloatsList] at h
      obtain ⟨h1, h2⟩ := Bool.and_eq_true_iff.mp h
      rcases List.mem_cons.mp hm with rfl | hm2
      · exact h1
      · exact ih h2 hm2

lemma plainFloats_dict_mem {es : List (String × Value)} {e : String × Value}
    (h : plainFloats (.dict es) = true) (hm : e ∈ es) : plainFloats e.2 = true := by
  rw [plainFloats] at h
  induction es with
  | nil => cases hm
  | cons y t ih =>
      rw [plainFloatsKVList] at h
      obtain ⟨h1, h2⟩ := Bool.and_eq_true_iff.mp h
      rcases List.mem_cons.mp hm with rfl | hm2
      · exact h1
      · exact ih h2 hm2

lemma F64.bits_eq_of_beq {f1 f2 : F64} (h1 : f1 ≠ .negZero) (h1n : f1.isNan = false)
    (h2 : f2 ≠ .negZero) (h2n : f2.isNan = false) (hb : F64.beq f1 f2 = true) :
    f1.bits = f2.bits := by
  cases f1 <;> cases f2 <;>
    simp_all [F64.beq, F64.cmpNum, F64.toRat?, F64.isNan] <;>
    try (exact absurd hb (by decide))
  rename_i q1 q2
  split_ifs at hb with ha hc
  · cases hb
  · cases hb
  · have : q1 = q2 := le_antisymm (le_of_not_lt hc) (le_of_not_lt ha)
    rw [this]

lemma beqList_len_stream {xs : List Value}
    (H : ∀ x ∈ xs, plainFloats x = true → ∀ y, plainFloats y = true →
      Value.beq x y = true → Value.hashStream x = Value.hashStream y) :
    ∀ ys, plainFloatsList xs = true → plainFloatsList ys = true →
      beqList xs ys = true →
      xs.length = ys.length ∧ hashStreamList xs = hashStreamList ys := by
  induction xs with
  | nil =>
      intro ys _ _ hb
      cases ys with
      | nil => exact ⟨rfl, rfl⟩
      | cons y t => exact Bool.noConfusion hb
  | cons x t ih =>
      intro ys hp1 hp2 hb
      cases ys with
      | nil => exact Bool.noConfusion hb
      | cons y t2 =>
          rw [beqList] at hb
          obtain ⟨hb1, hb2⟩ := Bool.and_eq_true_iff.mp hb
          rw [plainFloatsList] at hp1 hp2
          obtain ⟨hp1a, hp1b⟩ := Bool.and_eq_true_iff.mp hp1
          obtain ⟨hp2a, hp2b⟩ := Bool.and_eq_true_iff.mp hp2
          obtain ⟨hlen, hstr⟩ := ih
            (fun a ha p' => H a (List.mem_cons_of_mem _ ha) p') t2 hp1b hp2b hb2
          refine ⟨by simp [hlen], ?_⟩
          rw [hashStreamList, hashStreamList,
            H x (by simp) hp1a y hp2a hb1, hstr]

lemma beqKVList_len_stream {xs : List (String × Value)}
    (H : ∀ e ∈ xs, plainFloats e.2 = true → ∀ y, plainFloats y = true →
      Value.beq e.2 y = true → Value.hashStream e.2 = Value.hashStream y) :
    ∀ ys, plainFloatsKVList xs = true → plainFloatsKVList ys = true →
      beqKVList xs ys = true →
      xs.length = ys.length ∧ hashStreamKVList xs = hashStreamKVList ys := by
  induction xs with
  | nil =>
      intro ys _ _ hb
      cases ys with
      | nil => exact ⟨rfl, rfl⟩
      | cons y t => exact Bool.noConfusion hb
  | cons x t ih =>
      intro ys hp1 hp2 hb
      cases ys with
      | nil =>
          obtain ⟨k, v⟩ := x
          exact Bool.noConfusion hb
      | cons y t2 =>
          obtain ⟨k1, v1⟩ := x
          obtain ⟨k2, v2⟩ := y
          rw [beqKVList] at hb
          obtain ⟨hb12, hb2⟩ := Bool.and_eq_true_iff.mp hb
          obtain ⟨hbk, hb1⟩ := Bool.and_eq_true_iff.mp hb12
          rw [plainFloatsKVList] at hp1 hp2
          obtain ⟨hp1a, hp1b⟩ := Bool.and_eq_true_iff.mp hp1
          obtain ⟨hp2a, hp2b⟩ := Bool.and_eq_true_iff.mp hp2
          obtain ⟨hlen, hstr⟩ := ih
            (fun a ha p' => H a (List.mem_cons_of_mem _ ha) p') t2 hp1b hp2b hb2
          have hk : k1 = k2 := by simpa using hbk
          refine ⟨by simp [hlen], ?_⟩
          rw [hashStreamKVList, hashStreamKVList, hk,
            H (k1, v1) (by simp) hp1a v2 hp2a hb1, hstr]

/-- Hash–equality consistency on values with no `-0.0` / NaN float leaves
(core of the amended C3): custom-equal values feed the hasher identical
input streams. -/
lemma hashStream_congr :
    ∀ v1 : Value, plainFloats v1 = true → ∀ v2, plainFloats v2 = true →
      Value.beq v1 v2 = true → Value.hashStream v1 = Value.hashStream v2 := by
  refine Value.inductionOn ?_ ?_ ?_ ?_ ?_ ?_
  · intro i hp1 v2 hp2 hb
    cases v2 <;> try exact Bool.noConfusion hb
    rename_i j
    rw [Value.beq] at hb
    have : i = j := by simpa using hb
    rw [this]
  · intro f hp1 v2 hp2 hb
    cases v2 <;> try exact Bool.noConfusion hb
    rename_i g
    rw [Value.beq] at hb
    have hbits : f.bits = g.bits := by
      cases f <;> cases g <;> try exact Bool.noConfusion hp1
      all_goals try exact Bool.noConfusion hp2
      all_goals simp only [F64.isNan, Bool.and_false, Bool.false_and,
        Bool.false_eq_true, if_false] at hb
      all_goals exact F64.bits_eq_of_beq (by simp) (by rfl) (by simp) (by rfl) hb
    rw [Value.hashStream, Value.hashStream, hbits]
  · intro s hp1 v2 hp2 hb
    cases v2 <;> try exact Bool.noConfusion hb
    rename_i s2
    rw [Value.beq] at hb
    have : s = s2 := by simpa using hb
    rw [this]
  · intro b hp1 v2 hp2 hb
    cases v2 <;> try exact Bool.noConfusion hb
    rename_i b2
    rw [Value.beq] at hb
    have : b = b2 := by simpa using hb
    rw [this]
  · intro xs ih hp1 v2 hp2 hb
    cases v2 <;> try exact Bool.noConfusion hb
    rename_i ys
    rw [Value.beq] at hb
    rw [plainFloats] at hp1 hp2
    obtain ⟨hlen, hstr⟩ := beqList_len_stream (fun x hx => ih x hx) ys hp1 hp2 hb
    rw [Value.hashStream, Value.hashStream, hlen, hstr]
  · intro es ih hp1 v2 hp2 hb
    cases v2 <;> try exact Bool.noConfusion hb
    rename_i es2
    rw [Value.beq] at hb
    rw [plainFloats] at hp1 hp2
    obtain ⟨hlen, hstr⟩ := beqKVList_len_stream (fun e he => ih e he) es2 hp1 hp2 hb
    rw [Value.hashStream, Value.hashStream, hlen, hstr]

/-!
## Mismatched variants and the percent-tolerance zero case
-/

lemma Value.beq_false_of_variant_ne {v1 v2 : Value}
    (h : v1.variant_order ≠ v2.variant_order) : Value.beq v1 v2 = false := by
  cases v1 <;> cases v2 <;> first | rfl | (exact absurd rfl h)

lemma compare_recursive_mismatch (c : DeepDiff) (v1 v2 : Value) (p : String)
    (h : v1.variant_order ≠ v2.variant_order) :
    compare_recursive c v1 v2 p = [Diff.changed p v1 v2] := by
  cases v1 <;> cases v2 <;> first
    | (exact absurd rfl h)
    | simp only [compare_recursive, values_equal, Value.beq_false_of_variant_ne h,
        Bool.false_eq_true, if_false]

lemma isZero_abs {z : F64} (h : z.isZero = true) : z.abs = .num 0 := by
  cases z <;> try exact Bool.noConfusion h
  · rename_i q
    rw [F64.isZero] at h
    have hq : q = 0 := by simpa using h
    subst hq
    norm_num [F64.abs]
  · rfl

lemma isZero_sub_abs {z1 z2 : F64} (h1 : z1.isZero = true) (h2 : z2.isZero = true) :
    (F64.sub z1 z2).abs = .num 0 := by
  cases z1 <;> try exact Bool.noConfusion h1
  all_goals cases z2 <;> try exact Bool.noConfusion h2
  · rename_i q1 q2
    rw [F64.isZero] at h1 h2
    have hq1 : q1 = 0 := by simpa using h1
    have hq2 : q2 = 0 := by simpa using h2
    subst hq1; subst hq2
    norm_num [F64.sub, F64.abs]
  · rename_i q1
    rw [F64.isZero] at h1
    have hq1 : q1 = 0 := by simpa using h1
    subst hq1
    norm_num [F64.sub, F64.abs]
  · rename_i q2
    rw [F64.isZero] at h2
    have hq2 : q2 = 0 := by simpa using h2
    subst hq2
    norm_num [F64.sub, F64.abs]
  · norm_num [F64.sub, F64.abs]

lemma values_equal_zero_percent (t : F64) (io : Bool) {z1 z2 : F64}
    (h1 : z1.isZero = true) (h2 : z2.isZero = true) :
    values_equal { ignore_order := io, float_tolerance := some t, use_percent := true }
      (.float z1) (.float z2) = false := by
  simp only [values_equal]
  rw [isZero_sub_abs h1 h2, isZero_abs h1, isZero_abs h2]
  have hmax : F64.max (.num 0) (.num 0) = .num 0 := by
    norm_num [F64.max, F64.isNan, F64.cmpNum, F64.toRat?]
  have hdiv : F64.div (.num 0) (.num 0) = .nan := by
    norm_num [F64.div]
  rw [hmax, hdiv, if_pos trivial]
  cases t <;> rfl

/-!
## Claim theorems
-/

/-- C1 counterexample: two `+0.0` floats are bit-identical
(`to_bits` agrees), yet under a percent tolerance the engine still emits a
`Changed` diff — the claim's "unless they are bit-identical, in which case
they are equal and no diff is emitted" clause fails on the code. -/
theorem c1_counterexample :
    F64.bits (.num 0) = F64.bits (.num 0) ∧
    compare { ignore_order := false, float_tolerance := some (.num 1), use_percent := true }
      (.float (.num 0)) (.float (.num 0)) =
      [Diff.changed "" (.float (.num 0)) (.float (.num 0))] := by
  refine ⟨rfl, ?_⟩
  rw [compare_def]
  simp only [compare_recursive]
  rw [values_equal_zero_percent (.num 1) false (by simp [F64.isZero]) (by simp [F64.isZero])]
  rfl

/-- C1 (amended): with a percent float tolerance configured, comparing two
zero floats always emits a `Changed` diff — `0/0` is NaN, the `<=`
comparison is false for every threshold, and no bit-identity escape
exists: the two values are deemed unequal even when bit-identical. -/
theorem c1_percent_zero_always_changed (t : F64) (io : Bool) (p : String) (z1 z2 : F64)
    (h1 : z1.isZero = true) (h2 : z2.isZero = true) :
    compare_recursive { ignore_order := io, float_tolerance := some t, use_percent := true }
      (.float z1) (.float z2) p = [Diff.changed p (.float z1) (.float z2)] := by
  simp only [compare_recursive]
  rw [values_equal_zero_percent t io h1 h2]
  rfl

/-- C1 witness: the amended claim at threshold `1.0`, `+0.0` vs `-0.0`. -/
theorem c1_witness :
    compare_recursive
      { ignore_order := false, float_tolerance := some (.num 1), use_percent := true }
      (.float (.num 0)) (.float .negZero) "" =
      [Diff.changed "" (.float (.num 0)) (.float .negZero)] :=
  c1_percent_zero_always_changed (.num 1) false "" (.num 0) .negZero
    (by simp [F64.isZero]) rfl

/-- C2 counterexample: `Float(NaN)` is a well-formed value, yet comparing
it with itself under the default configuration (no tolerance) emits a
`Changed` diff — `values_equal` uses IEEE `f1 == f2` for a bare float
pair, bypassing the custom NaN-equals-NaN `PartialEq`, so idempotence
fails on NaN-bearing values. -/
theorem c2_counterexample :
    Value.wf (.float .nan) = true ∧
    compare DeepDiff.new (.float .nan) (.float .nan) =
      [Diff.changed "" (.float .nan) (.float .nan)] := by
  refine ⟨rfl, ?_⟩
  rw [compare_def]
  simp only [compare_recursive]
  rw [show values_equal DeepDiff.new (.float .nan) (.float .nan) = false from rfl]
  rfl

/-- C2 (amended): `compare(v, v)` is the empty list for every well-formed
`v` all of whose float leaves are reflexively equal under the configured
leaf equality (`reflOK`).  With no tolerance that excludes exactly NaN
leaves; with an absolute tolerance it excludes NaN and infinite leaves
(`f - f` is NaN there); with a percent tolerance it additionally excludes
zero leaves (`0/0` is NaN).  The original claim — idempotence for every
configuration even with NaN — is refuted by the counterexample. -/
theorem c2_idempotent (c : DeepDiff) (v : Value)
    (hw : Value.wf v = true) (hr : reflOK c v = true) :
    compare c v v = [] := by
  rw [compare_def]
  exact compare_recursive_self c v hw hr ""

/-- C2 witness: idempotence on a nested dict/array value under an
order-insensitive, absolute-tolerance configuration. -/
theorem c2_witness :
    compare { ignore_order := true, float_tolerance := some (.num 1), use_percent := false }
      (.dict [("a", .array [.int 2, .str "x", .bool true])])
      (.dict [("a", .array [.int 2, .str "x", .bool true])]) = [] :=
  c2_idempotent _ _ (by decide) (by decide)

/-- C3 counterexample: `+0.0` and `-0.0` are equal under the custom
`Value` equality (IEEE `==` treats the two zeros as equal) but are hashed
by their distinct bit patterns (`0` vs `2^63`), so equal values feed the
hasher different input — hashing is not consistent with equality. -/
theorem c3_counterexample :
    Value.beq (.float (.num 0)) (.float .negZero) = true ∧
    Value.hashStream (.float (.num 0)) ≠ Value.hashStream (.float .negZero) := by
  constructor
  · rw [Value.beq]
    norm_num [F64.beq, F64.cmpNum, F64.toRat?, F64.isNan]
    rfl
  · rw [Value.hashStream, Value.hashStream]
    norm_num [F64.bits]

/-- C3 (amended): hashing is consistent with the custom equality on
values none of whose float leaves is `-0.0` or NaN: custom-equal values
feed the hasher identical input streams.  The exceptional float leaves
are real: `+0.0`/`-0.0` (the counterexample) and NaNs of distinct
payloads are equal but hash by different bit patterns. -/
theorem c3_hash_consistent (v1 v2 : Value)
    (h1 : plainFloats v1 = true) (h2 : plainFloats v2 = true)
    (hb : Value.beq v1 v2 = true) :
    Value.hashStream v1 = Value.hashStream v2 :=
  hashStream_congr v1 h1 v2 h2 hb

/-- C3 witness: equal dicts containing an infinite float leaf hash to the
same stream. -/
theorem c3_witness :
    Value.hashStream (.dict [("a", .array [.float .posInf, .int 3])]) =
      Value.hashStream (.dict [("a", .array [.float .posInf, .int 3])]) :=
  c3_hash_consistent _ _ (by decide) (by decide) (by decide)

lemma dualDiff_eq_added_iff {d : Diff} {p : String} {x : Value} :
    dualDiff d = .added p x ↔ d = .removed p x := by
  cases d <;> simp [dualDiff]

lemma dualDiff_eq_removed_iff {d : Diff} {p : String} {x : Value} :
    dualDiff d = .removed p x ↔ d = .added p x := by
  cases d <;> simp [dualDiff]

lemma dualDiff_eq_changed_iff {d : Diff} {p : String} {x y : Value} :
    dualDiff d = .changed p y x ↔ d = .changed p x y := by
  cases d <;> simp [dualDiff] <;> tauto

/-- C4: Removed/Added duality.  For well-formed trees under any fixed
configuration, `compare(b, a)` is a permutation of `compare(a, b)` with
each entry mirrored (`Removed(p, x)` ↔ `Added(p, x)`, `Changed(p, x, y)`
↔ `Changed(p, y, x)`); in particular each mirrored membership holds in
both directions. -/
theorem c4_duality (c : DeepDiff) (a b : Value)
    (ha : Value.wf a = true) (hb : Value.wf b = true) :
    List.Perm (compare c b a) ((compare c a b).map dualDiff) ∧
    (∀ p x, Diff.removed p x ∈ compare c a b ↔ Diff.added p x ∈ compare c b a) ∧
    (∀ p x, Diff.added p x ∈ compare c a b ↔ Diff.removed p x ∈ compare c b a) ∧
    (∀ p x y, Diff.changed p x y ∈ compare c a b ↔ Diff.changed p y x ∈ compare c b a) := by
  have h := compare_recursive_dual (a.msize + b.msize) a b c "" le_rfl ha hb
  rw [compare_def, compare_def]
  refine ⟨h, ?_, ?_, ?_⟩
  · intro p x
    rw [h.mem_iff, List.mem_map]
    constructor
    · intro hm; exact ⟨Diff.removed p x, hm, rfl⟩
    · rintro ⟨d, hd, hde⟩
      rwa [dualDiff_eq_added_iff.mp hde] at hd
  · intro p x
    rw [h.mem_iff, List.mem_map]
    constructor
    · intro hm; exact ⟨Diff.added p x, hm, rfl⟩
    · rintro ⟨d, hd, hde⟩
      rwa [dualDiff_eq_removed_iff.mp hde] at hd
  · intro p x y
    rw [h.mem_iff, List.mem_map]
    constructor
    · intro hm; exact ⟨Diff.changed p x y, hm, rfl⟩
    · rintro ⟨d, hd, hde⟩
      rwa [dualDiff_eq_changed_iff.mp hde] at hd

/-- C4 witness: the duality at `{"a": 1}` vs `{"b": 1}` under the default
configuration. -/
theorem c4_witness :
    List.Perm
      (compare DeepDiff.new (.dict [("b", .int 1)]) (.dict [("a", .int 1)]))
      ((compare DeepDiff.new (.dict [("a", .int 1)]) (.dict [("b", .int 1)])).map dualDiff) :=
  (c4_duality DeepDiff.new (.dict [("a", .int 1)]) (.dict [("b", .int 1)])
    (by decide) (by decide)).1

lemma removed_sublist (c : DeepDiff) (d1 d2 : List (String × Value)) (p : String) :
    List.Sublist
      ((d1.filter fun e => !containsKey d2 e.1).map fun e =>
        Diff.removed (joinPath p e.1) e.2)
      (dicts_removed_loop c d1 d2 p) := by
  induction d1 with
  | nil => rw [drl_nil]; exact List.Sublist.refl []
  | cons e t ih =>
      obtain ⟨k, v⟩ := e
      rw [drl_cons]
      rcases hlk : lookupKV k d2 with _ | v2
      · have hck : containsKey d2 k = false := by simp [containsKey, hlk]
        rw [List.filter_cons]
        simp only [hck, Bool.not_false, if_true, List.map_cons]
        exact List.Sublist.cons₂ _ ih
      · have hck : containsKey d2 k = true := by simp [containsKey, hlk]
        rw [List.filter_cons]
        simp only [hck, Bool.not_true, Bool.false_eq_true, if_false]
        exact ih.trans (List.sublist_append_right _ _)

/-- C5: dict-level ordering.  Comparing two well-formed dicts produces
the first loop's output (which contains this level's `Removed` entries as
a subsequence, in ascending key order) followed by all of this level's
`Added` entries, themselves the ascending-key filter of `dict2`'s keys
missing from `dict1`. -/
theorem c5_dict_level_order (c : DeepDiff) (d1 d2 : List (String × Value)) (p : String)
    (h1 : keysStrictSorted d1 = true) (h2 : keysStrictSorted d2 = true) :
    compare_recursive c (.dict d1) (.dict d2) p =
      dicts_removed_loop c d1 d2 p ++
        ((d2.filter fun e => !containsKey d1 e.1).map fun e =>
          Diff.added (joinPath p e.1) e.2) ∧
    List.Sublist
      ((d1.filter fun e => !containsKey d2 e.1).map fun e =>
        Diff.removed (joinPath p e.1) e.2)
      (dicts_removed_loop c d1 d2 p) ∧
    List.Pairwise (· < ·) ((d1.filter fun e => !containsKey d2 e.1).map fun e => e.1) ∧
    List.Pairwise (· < ·) ((d2.filter fun e => !containsKey d1 e.1).map fun e => e.1) := by
  refine ⟨?_, removed_sublist c d1 d2 p, ?_, ?_⟩
  · simp only [compare_recursive, compare_dicts_eq]
    rfl
  · exact List.pairwise_map.mpr ((keysStrictSorted_pairwise h1).filter _)
  · exact List.pairwise_map.mpr ((keysStrictSorted_pairwise h2).filter _)

/-- C5 witness: `{"a": 1}` vs `{"b": 2}` — the level's single `Removed`
precedes the level's single `Added`. -/
theorem c5_witness :
    compare_recursive DeepDiff.new (.dict [("a", .int 1)]) (.dict [("b", .int 2)]) "" =
      dicts_removed_loop DeepDiff.new [("a", .int 1)] [("b", .int 2)] "" ++
        (([("b", Value.int 2)].filter fun e => !containsKey [("a", Value.int 1)] e.1).map
          fun e => Diff.added (joinPath "" e.1) e.2) :=
  (c5_dict_level_order DeepDiff.new [("a", .int 1)] [("b", .int 2)] ""
    (by decide) (by decide)).1

/-- C6: order-insensitive arrays.  With `ignore_order` set, comparing two
arrays equals the positional walk of the two sorted copies in which every
element is compared at the parent path unchanged (no `[index]` suffix is
ever appended); the sorted copies are permutations of the originals,
ascending under the Value total order; and `[1,2,3]` vs `[3,2,1]`
produces the empty diff list. -/
theorem c6_unordered_arrays (c : DeepDiff) (h : c.ignore_order = true) :
    (∀ a1 a2 p, compare_recursive c (.array a1) (.array a2) p =
      specNoIndexWalk c (sortValues a1) (sortValues a2) p) ∧
    (∀ l, List.Perm (sortValues l) l ∧
      List.Chain' (fun a b => Value.cmp a b ≠ .gt) (sortValues l)) ∧
    compare c (.array [.int 1, .int 2, .int 3]) (.array [.int 3, .int 2, .int 1]) = [] := by
  refine ⟨?_, fun l => ⟨sortValues_perm l, chain'_sortValues l⟩, ?_⟩
  · intro a1 a2 p
    simp only [compare_recursive, compare_arrays, h, if_true, compare_arrays_unordered]
    have hres := ordered_loop_no_index c h (sortValues a1) (sortValues a2) p 0
    simpa using hres
  · simp +decide [compare_def, compare_recursive, compare_arrays, compare_arrays_unordered,
      h, sortValues, insertVal, Value.cmp, ordered_loop_eq, values_equal]

/-- C6 witness: the no-index walk equality at a concrete pair of arrays
under the order-insensitive default-tolerance configuration. -/
theorem c6_witness :
    compare { ignore_order := true, float_tolerance := none, use_percent := false }
      (.array [.int 1, .int 2, .int 3]) (.array [.int 3, .int 2, .int 1]) = [] :=
  (c6_unordered_arrays
    { ignore_order := true, float_tolerance := none, use_percent := false } rfl).2.2

/-- C7: order-sensitive arrays.  With `ignore_order` off, comparing two
arrays equals the spec's indexed walk over `0..max(len a, len b)` —
recursing at `parent[i]` on common indices, `Removed`/`Added` at
`parent[i]` for one-sided indices — and `[1,2,3]` vs `[1,2]` yields
exactly `[Removed("[2]", 3)]`. -/
theorem c7_ordered_arrays (c : DeepDiff) (h : c.ignore_order = false) :
    (∀ a1 a2 p, compare_recursive c (.array a1) (.array a2) p = specIndexedWalk c a1 a2 p) ∧
    compare DeepDiff.new (.array [.int 1, .int 2, .int 3]) (.array [.int 1, .int 2]) =
      [Diff.removed "[2]" (.int 3)] := by
  constructor
  · intro a1 a2 p
    simp only [compare_recursive, compare_arrays, h, Bool.false_eq_true, if_false]
    rw [ordered_loop_indexed c h a1 a2 p 0]
    rw [specIndexedWalk, List.range_eq_range', Nat.sub_zero]
  · simp +decide [compare_def, compare_recursive, compare_arrays, ordered_loop_eq,
      values_equal, DeepDiff.new, idxPath]

/-- C7 witness: the indexed-walk equality instantiated at the default
configuration. -/
theorem c7_witness :
    compare DeepDiff.new (.array [.int 1, .int 2, .int 3]) (.array [.int 1, .int 2]) =
      [Diff.removed "[2]" (.int 3)] :=
  (c7_ordered_arrays DeepDiff.new rfl).2

/-- C8: path syntax.  `compare` starts the walk at the empty root path;
dict descent joins the key directly at the root (no leading dot) and with
a dot separator below it; ordered array descent appends `[index]`; a
top-level leaf difference carries the empty path; a top-level dict key
difference starts with the bare key; and a nested difference reports the
fully joined path `a.b[0].c`. -/
theorem c8_path_syntax :
    (∀ c v1 v2, compare c v1 v2 = compare_recursive c v1 v2 "") ∧
    (∀ k, joinPath "" k = k) ∧
    (∀ p k, p ≠ "" → joinPath p k = p ++ "." ++ k) ∧
    (∀ p i, idxPath p i = p ++ "[" ++ toString i ++ "]") ∧
    compare DeepDiff.new (.int 1) (.int 2) = [Diff.changed "" (.int 1) (.int 2)] ∧
    compare DeepDiff.new (.dict [("a", .int 1)]) (.dict []) = [Diff.removed "a" (.int 1)] ∧
    compare DeepDiff.new
      (.dict [("a", .dict [("b", .array [.dict [("c", .int 1)]])])])
      (.dict [("a", .dict [("b", .array [.dict [("c", .int 2)]])])]) =
      [Diff.changed "a.b[0].c" (.int 1) (.int 2)] := by
  refine ⟨fun c v1 v2 => rfl, fun k => rfl, ?_, fun p i => rfl, ?_, ?_, ?_⟩
  · intro p k hp
    rw [joinPath, if_neg hp]
  · simp +decide [compare_def, compare_recursive, values_equal]
  · simp +decide [compare_def, compare_recursive, compare_dicts_eq, drl_cons, drl_nil,
      lookupKV, added_entries, containsKey, joinPath]
  · simp +decide [compare_def, compare_recursive, compare_dicts_eq, drl_cons, drl_nil,
      lookupKV, added_entries, containsKey, compare_arrays, ordered_loop_eq, values_equal,
      joinPath, idxPath, DeepDiff.new]

/-- C8 witness: the dot-join rule at a nonempty parent path. -/
theorem c8_witness : joinPath "ab" "c" = "ab" ++ "." ++ "c" :=
  c8_path_syntax.2.2.1 "ab" "c" (by decide)

/-- C9: totality.  Mismatched-variant pairs always resolve to a single
`Changed` diff (never an error), and the `(None, None)` arm of the
positional array walk — `unreachable!()` in the Rust source — is never
reached from any start index, so `compare` never panics and returns a
complete diff list for every input (in this embedding every function is
total by construction, and this theorem discharges the one source-level
panic site). -/
theorem c9_totality (c : DeepDiff) (v1 v2 : Value) (p : String)
    (h : v1.variant_order ≠ v2.variant_order) :
    compare_recursive c v1 v2 p = [Diff.changed p v1 v2] ∧
    (∀ (l1 l2 : List Value) (i : ℕ), loop_hits_unreachable l1 l2 i = false) := by
  exact ⟨compare_recursive_mismatch c v1 v2 p h, loop_never_unreachable⟩

/-- C9 witness: an integer against a string resolves to `Changed`. -/
theorem c9_witness :
    compare_recursive DeepDiff.new (.int 1) (.str "x") "" =
      [Diff.changed "" (.int 1) (.str "x")] :=
  (c9_totality DeepDiff.new (.int 1) (.str "x") "" (by decide)).1

/-- C10: tolerance never crosses the Int/Float divide.  For every
configuration (any threshold, absolute or percent), an `Int` leaf against
a `Float` leaf — in either order — always emits a `Changed` diff, and the
adapter indeed maps the JSON number `1` to `Value::Int(1)` and `1.0` to
`Value::Float(1.0)`, so `compare_json` on those two numbers reports a
`Changed` regardless of tolerance. -/
theorem c10_int_float_always_changed :
    (∀ (c : DeepDiff) (i : ℤ) (f : F64) (p : String),
      compare_recursive c (.int i) (.float f) p = [Diff.changed p (.int i) (.float f)]) ∧
    (∀ (c : DeepDiff) (i : ℤ) (f : F64) (p : String),
      compare_recursive c (.float f) (.int i) p = [Diff.changed p (.float f) (.int i)]) ∧
    json_to_value (.number (.i64 1)) = .int 1 ∧
    json_to_value (.number (.f64 (.num 1))) = .float (.num 1) ∧
    (∀ c : DeepDiff, compare_json c (.number (.i64 1)) (.number (.f64 (.num 1))) =
      [Diff.changed "" (.int 1) (.float (.num 1))]) := by
  have h1 : ∀ (c : DeepDiff) (i : ℤ) (f : F64) (p : String),
      compare_recursive c (.int i) (.float f) p = [Diff.changed p (.int i) (.float f)] := by
    intro c i f p
    simp only [compare_recursive, values_equal, Value.beq, Bool.false_eq_true, if_false]
  refine ⟨h1, ?_, rfl, rfl, ?_⟩
  · intro c i f p
    simp only [compare_recursive, values_equal, Value.beq, Bool.false_eq_true, if_false]
  · intro c
    exact h1 c 1 (.num 1) ""
